import Mathlib

/-!
Verification of the conflict-free scheduling engine.

The definitions below are a shallow embedding of the Python sources:
`src/activity.py`, `src/scheduler.py`, `src/algorithms/backtracking.py`,
`src/algorithms/dynamic_programming.py`, `src/algorithms/graph_coloring.py`,
`src/algorithms/genetic_algorithm.py` and the dispatcher in `main.py`.

Modelling conventions:
* Python `int` times become `Int`; `float` weights become `Rat`.
* The display metadata fields (`name`, `room`, `faculty`, `course_code`) are
  never read by any algorithm, so the record keeps only the four fields the
  algorithms use.  The field `end` is a Lean keyword and is named `endTime`.
* Python's stable `sorted(..., key=...)` is modelled by `List.insertionSort`
  with the corresponding total preorder (any two stable sorts agree).
* Python dicts keyed by activity id are modelled as functions `Int → _`
  updated pointwise (the sources only ever read keys they have inserted).
* The genetic algorithm's pseudorandom evolution is abstracted by the
  chromosome of the best feasible individual found (or `none` when none was
  found): the final return of `evolve_schedule` re-checks `is_valid` and
  otherwise falls back to the deterministic greedy heuristic, which is the
  behaviour modelled here; quantifying over that chromosome covers every
  random stream.
-/

/-- `Activity` from `src/activity.py` (and its duplicated dataclass copies in
the algorithm modules): id, start, end, weight; metadata fields omitted as
algorithmically inert. -/
structure Activity where
  id : Int
  start : Int
  endTime : Int
  weight : Rat
deriving DecidableEq, Repr

/-- `Activity.overlaps_with` from `src/activity.py`:
`not (self.end <= other.start or other.end <= self.start)`. -/
def overlaps_with (a b : Activity) : Bool :=
  !(decide (a.endTime ≤ b.start) || decide (b.endTime ≤ a.start))

/-- `GraphColoringScheduler.has_time_conflict` from
`src/algorithms/graph_coloring.py`:
`not (a1.end <= a2.start or a2.end <= a1.start)`. -/
def has_time_conflict (a1 a2 : Activity) : Bool :=
  !(decide (a1.endTime ≤ a2.start) || decide (a2.endTime ≤ a1.start))

/-- `ConflictFreeScheduler.has_conflict` from `src/scheduler.py`:
`not (a1.end <= a2.start or a2.end <= a1.start)`. -/
def has_conflict (a1 a2 : Activity) : Bool :=
  !(decide (a1.endTime ≤ a2.start) || decide (a2.endTime ≤ a1.start))

/-- Comparison used by `sorted(activities, key=lambda a: a.start)`. -/
def startLE (a b : Activity) : Prop := a.start ≤ b.start

instance : DecidableRel startLE := fun a b => inferInstanceAs (Decidable (a.start ≤ b.start))

instance : IsTotal Activity startLE := ⟨fun a b => Int.le_total a.start b.start⟩

instance : IsTrans Activity startLE := ⟨fun _ _ _ h1 h2 => le_trans h1 h2⟩

/-- Comparison used by `sorted(activities, key=lambda a: a.end)`. -/
def endLE (a b : Activity) : Prop := a.endTime ≤ b.endTime

instance : DecidableRel endLE := fun a b => inferInstanceAs (Decidable (a.endTime ≤ b.endTime))

instance : IsTotal Activity endLE := ⟨fun a b => Int.le_total a.endTime b.endTime⟩

instance : IsTrans Activity endLE := ⟨fun _ _ _ h1 h2 => le_trans h1 h2⟩

/-- Stable sort by start time, `sorted(activities, key=lambda a: a.start)`. -/
def sortStart (l : List Activity) : List Activity := List.insertionSort startLE l

/-- Stable sort by end time, `sorted(activities, key=lambda a: a.end)`. -/
def sortEnd (l : List Activity) : List Activity := List.insertionSort endLE l

/-- Total weight of a list of activities (`sum(act.weight for act in ...)`). -/
def wsum (l : List Activity) : Rat := (l.map Activity.weight).sum

/-- A result list is conflict-free: every pair of distinct positions is
non-overlapping under the shared conflict predicate. -/
def NoOverlap (l : List Activity) : Prop :=
  List.Pairwise (fun a b => overlaps_with a b = false) l

instance (l : List Activity) : Decidable (NoOverlap l) :=
  inferInstanceAs (Decidable (List.Pairwise _ l))

/-- Well-formed input per the spec's data model: `end > start`, `weight ≥ 0`. -/
def WellFormed (l : List Activity) : Prop :=
  ∀ a ∈ l, a.start < a.endTime ∧ 0 ≤ a.weight

/-- The true optimum: the maximum total weight over all conflict-free
subsets (sublists) of the input. -/
def optWeight (acts : List Activity) : Rat :=
  ((acts.sublists.filter (fun s => decide (NoOverlap s))).map wsum).foldr max 0

/- ------------------------------------------------------------------ -/
/- Backtracking solver, `src/algorithms/backtracking.py`              -/
/- ------------------------------------------------------------------ -/

/-- The recursive `backtrack` closure inside
`BacktrackingScheduler.optimal_schedule`.  The Python closure mutates
`(best_solution, best_weight)`; here that pair is threaded explicitly.
The two recursive calls keep the source's order: first "don't include",
then "include if `current_activity.start >= last_end_time`", and the prune
`current_weight + remaining_weight <= best_weight` is kept verbatim. -/
def backtrack : List Activity → List Activity → Rat → Int → List Activity × Rat →
    List Activity × Rat
  | [], cur, curW, _, best => if best.2 < curW then (cur, curW) else best
  | a :: rest, cur, curW, lastEnd, best =>
    if curW + wsum (a :: rest) ≤ best.2 then best
    else
      let best1 := backtrack rest cur curW lastEnd best
      if lastEnd ≤ a.start then
        backtrack rest (cur ++ [a]) (curW + a.weight) a.endTime best1
      else best1

/-- `BacktrackingScheduler.optimal_schedule`. -/
def optimal_schedule (acts : List Activity) : List Activity :=
  if acts.isEmpty then [] else (backtrack (sortStart acts) [] 0 0 ([], 0)).1

/-- `BacktrackingScheduler._is_feasible` (also the body of
`Individual._is_conflict_free` in the genetic module): sort by start time and
fail iff some adjacent pair has `end > next.start`. -/
def chainOK : List Activity → Bool
  | [] => true
  | [_] => true
  | a :: b :: rest => decide (a.endTime ≤ b.start) && chainOK (b :: rest)

/-- `BacktrackingScheduler._is_feasible` from `src/algorithms/backtracking.py`. -/
def is_feasible (l : List Activity) : Bool :=
  if l.length ≤ 1 then true else chainOK (sortStart l)

/-- The recursive `backtrack` closure inside
`BacktrackingScheduler.schedule_with_constraints`, with the mandatory-id
accounting.  There is no pruning in this variant (none in the source). -/
def btc (mand : Finset Int) : List Activity → List Activity → Rat → Int → Finset Int →
    List Activity × Rat → List Activity × Rat
  | [], cur, curW, _, included, best =>
    if included = mand ∧ best.2 < curW then (cur, curW) else best
  | a :: rest, cur, curW, lastEnd, included, best =>
    let best1 :=
      if a.id ∈ mand then best else btc mand rest cur curW lastEnd included best
    if lastEnd ≤ a.start then
      btc mand rest (cur ++ [a]) (curW + a.weight) a.endTime
        (if a.id ∈ mand then insert a.id included else included) best1
    else best1

/-- `BacktrackingScheduler.schedule_with_constraints`. -/
def schedule_with_constraints (acts : List Activity) (mand forb : Finset Int) :
    List Activity :=
  if acts.isEmpty then [] else
    let valid := acts.filter (fun a => decide (a.id ∉ forb))
    let mandActs := valid.filter (fun a => decide (a.id ∈ mand))
    if is_feasible mandActs then (btc mand (sortStart valid) [] 0 0 ∅ ([], 0)).1
    else []

/- ------------------------------------------------------------------ -/
/- Interval-DP solver, `src/algorithms/dynamic_programming.py`        -/
/- ------------------------------------------------------------------ -/

/-- `DynamicProgrammingScheduler.find_latest_non_conflicting`, in list form.
The source scans indices `i-1, ..., 0` of the end-sorted array for the first
`j` with `activities[j].end <= activities[index].start`.  Here the prefix
before the current activity is carried in reverse order (indices `i-1 … 0`),
so that scan is exactly `dropWhile`. -/
def latestCompatible (a : Activity) (rest : List Activity) : List Activity :=
  rest.dropWhile (fun b => decide (a.start < b.endTime))

/-- The memoized recurrence `dp(i) = max(dp(i-1), w_i + dp(p(i)))` of
`solve_weighted_activity_selection`, over the reversed end-sorted list. -/
def dpCompute : List Activity → Rat
  | [] => 0
  | a :: rest => max (dpCompute rest) (a.weight + dpCompute (latestCompatible a rest))
termination_by l => l.length
decreasing_by
  · simp
  · exact Nat.lt_succ_of_le ((List.dropWhile_sublist _).length_le)

/-- The reconstruction loop of `solve_weighted_activity_selection`: walk the
indices from `n-1` downward, recompute "with" vs "without", include the
current activity iff `with_current >= without_current` (ties toward
inclusion), jumping to `p(i)` on inclusion and to `i-1` otherwise. -/
def reconstruct : List Activity → List Activity
  | [] => []
  | a :: rest =>
    if dpCompute rest ≤ a.weight + dpCompute (latestCompatible a rest) then
      a :: reconstruct (latestCompatible a rest)
    else reconstruct rest
termination_by l => l.length
decreasing_by
  · exact Nat.lt_succ_of_le ((List.dropWhile_sublist _).length_le)
  · simp

/-- `DynamicProgrammingScheduler.solve_weighted_activity_selection`: sort by
end time, reconstruct from the last index, return in chronological order. -/
def solve_weighted_activity_selection (acts : List Activity) : List Activity :=
  if acts.isEmpty then [] else (reconstruct (sortEnd acts).reverse).reverse

/- ------------------------------------------------------------------ -/
/- Graph-coloring solver, `src/algorithms/graph_coloring.py`          -/
/- ------------------------------------------------------------------ -/

/-- The index pairs `(i, j)` with `i < j` walked by the double loop of
`build_conflict_graph`, in loop order. -/
def allPairs : List Activity → List (Activity × Activity)
  | [] => []
  | a :: rest => rest.map (fun b => (a, b)) ++ allPairs rest

/-- Append `y` to the adjacency list of `x` (`graph[x].append(y)`). -/
def addEdge (g : Int → List Int) (x y : Int) : Int → List Int :=
  fun v => if v = x then g x ++ [y] else g v

/-- `GraphColoringScheduler.build_conflict_graph`: the dict
`{activity.id: []}` seeded empty, then both directed edges appended for every
conflicting pair. -/
def build_conflict_graph (acts : List Activity) : Int → List Int :=
  (allPairs acts).foldl
    (fun g p =>
      if has_time_conflict p.1 p.2 then addEdge (addEdge g p.1.id p.2.id) p.2.id p.1.id
      else g)
    (fun _ => [])

/-- The `while color in used_colors: color += 1` loop of `assign_colors`:
the least natural number not in `used` (searched below `used.length + 1`,
where one must exist). -/
def nextColor (used : List Nat) : Nat :=
  ((List.range (used.length + 1)).filter (fun c => !(used.contains c))).headD 0

/-- One step of the `assign_colors` loop: collect the colors of already
colored neighbours, take the smallest unused color, record it. -/
def assignStep (g : Int → List Int) (cm : Int → Option Nat) (a : Activity) :
    Int → Option Nat :=
  let neighborColors := (g a.id).filterMap cm
  let c := nextColor neighborColors
  fun v => if v = a.id then some c else cm v

/-- `GraphColoringScheduler.assign_colors`: greedy coloring in input order. -/
def assign_colors (acts : List Activity) (g : Int → List Int) : Int → Option Nat :=
  acts.foldl (assignStep g) (fun _ => none)

/-- Final color of an activity under the solver's own coloring. -/
def colorOf (acts : List Activity) (a : Activity) : Nat :=
  ((assign_colors acts (build_conflict_graph acts)) a.id).getD 0

/-- One step of the `color_groups = defaultdict(list)` grouping loop:
append to the existing group of color `c`, or create it at the end
(Python dicts preserve key insertion order). -/
def addToGroup (gs : List (Nat × List Activity)) (c : Nat) (a : Activity) :
    List (Nat × List Activity) :=
  if gs.any (fun p => p.1 == c) then
    gs.map (fun p => if p.1 = c then (p.1, p.2 ++ [a]) else p)
  else gs ++ [(c, [a])]

/-- The `color_groups` dict of `coloring_schedule`, as an insertion-ordered
association list.  The source guard `if color >= 0` is vacuous (greedy colors
are naturals). -/
def colorGroups (acts : List Activity) (cm : Int → Option Nat) :
    List (Nat × List Activity) :=
  acts.foldl (fun gs a => addToGroup gs ((cm a.id).getD 0) a) []

/-- The inner placement loop of `coloring_schedule`: rebuild each activity at
the cursor with its original duration, then advance the cursor past it plus a
one-unit gap. -/
def placeAll : List Activity → Int → List Activity × Int
  | [], t => ([], t)
  | a :: rest, t =>
    let s : Activity :=
      { id := a.id, start := t, endTime := t + (a.endTime - a.start), weight := a.weight }
    let r := placeAll rest (s.endTime + 1)
    (s :: r.1, r.2)

/-- The outer loop of `coloring_schedule` over `color_groups.items()`:
sort each group by original start time, place it, keep the cursor. -/
def scheduleGroups : List (Nat × List Activity) → Int → List Activity
  | [], _ => []
  | g :: gs, t =>
    let placed := placeAll (sortStart g.2) t
    placed.1 ++ scheduleGroups gs placed.2

/-- `GraphColoringScheduler.coloring_schedule`. -/
def coloring_schedule (acts : List Activity) : List Activity :=
  if acts.isEmpty then [] else
    scheduleGroups (colorGroups acts (assign_colors acts (build_conflict_graph acts))) 0

/- ------------------------------------------------------------------ -/
/- Genetic solver, `src/algorithms/genetic_algorithm.py`              -/
/- ------------------------------------------------------------------ -/

/-- `Individual._is_conflict_free`: trivially true for at most one activity,
otherwise the adjacent check on the start-sorted list. -/
def is_conflict_free (l : List Activity) : Bool :=
  if l.length ≤ 1 then true else chainOK (sortStart l)

/-- `Individual.get_selected_activities`: the activities whose chromosome
bit is set. -/
def get_selected_activities (acts : List Activity) (chrom : List Bool) :
    List Activity :=
  (acts.zip chrom).filterMap (fun p => if p.2 then some p.1 else none)

/-- The `weight / max(end - start, 1)` sort key of `_greedy_fallback`. -/
def ratio (a : Activity) : Rat := a.weight / ((max (a.endTime - a.start) 1 : Int) : Rat)

/-- Comparison of `sorted(..., key=ratio, reverse=True)`. -/
def ratioGE (a b : Activity) : Prop := ratio b ≤ ratio a

instance : DecidableRel ratioGE := fun a b => inferInstanceAs (Decidable (ratio b ≤ ratio a))

instance : IsTotal Activity ratioGE := ⟨fun a b => le_total (ratio b) (ratio a)⟩

instance : IsTrans Activity ratioGE := ⟨fun _ _ _ h1 h2 => le_trans h2 h1⟩

/-- Stable sort by weight/duration ratio, descending. -/
def sortRatio (l : List Activity) : List Activity := List.insertionSort ratioGE l

/-- One iteration of `_greedy_fallback`'s selection loop: append the activity
unless it conflicts with some already-selected activity. -/
def greedyInsert (sel : List Activity) (a : Activity) : List Activity :=
  if sel.any (fun s => !(decide (a.endTime ≤ s.start) || decide (s.endTime ≤ a.start)))
  then sel else sel ++ [a]

/-- `GeneticAlgorithmScheduler._greedy_fallback`: accept each activity of the
ratio-sorted list that conflicts with no already-selected activity. -/
def greedy_fallback (acts : List Activity) : List Activity :=
  if acts.isEmpty then [] else (sortRatio acts).foldl greedyInsert []

/-- `GeneticAlgorithmScheduler.evolve_schedule`, abstracted over the random
evolution: `best` is the chromosome of the best feasible individual found
across all generations (`none` when no feasible individual was ever seen).
The final return re-checks `best_individual.is_valid` and otherwise falls
back to `_greedy_fallback`, exactly as in the source. -/
def evolve_schedule (acts : List Activity) (best : Option (List Bool)) :
    List Activity :=
  if acts.isEmpty then [] else
    match best with
    | some c =>
      if is_conflict_free (get_selected_activities acts c) then
        get_selected_activities acts c
      else greedy_fallback acts
    | none => greedy_fallback acts

/- ------------------------------------------------------------------ -/
/- Dispatcher, `main.py::run_single_algorithm`                        -/
/- ------------------------------------------------------------------ -/

/-- `run_single_algorithm` from `main.py`: dispatch on the algorithm token,
returning `[]` for an unknown token.  `gaBest` is the genetic solver's
abstracted random outcome. -/
def run_single_algorithm (algorithm : String) (acts : List Activity)
    (gaBest : Option (List Bool)) : List Activity :=
  if algorithm = "graph-coloring" then coloring_schedule acts
  else if algorithm = "dynamic-prog" then solve_weighted_activity_selection acts
  else if algorithm = "backtracking" then optimal_schedule acts
  else if algorithm = "genetic" then evolve_schedule acts gaBest
  else []

/-- The worked example of spec §8. -/
def workedExample : List Activity :=
  [⟨1, 0, 90, 3⟩, ⟨2, 50, 140, 1⟩, ⟨3, 100, 190, 3⟩]

instance (l : List Activity) : Decidable (WellFormed l) := List.decidableBAll _ l

/- ------------------------------------------------------------------ -/
/- Basic facts about the conflict predicate                           -/
/- ------------------------------------------------------------------ -/

theorem overlaps_false_iff (a b : Activity) :
    overlaps_with a b = false ↔ (a.endTime ≤ b.start ∨ b.endTime ≤ a.start) := by
  simp [overlaps_with]
  constructor
  · intro h
    rcases le_or_lt a.endTime b.start with h1 | h1
    · exact Or.inl h1
    · exact Or.inr (h h1)
  · intro h h1
    rcases h with h | h
    · exact absurd h1 (not_lt.mpr h)
    · exact h

theorem overlaps_comm (a b : Activity) : overlaps_with a b = overlaps_with b a := by
  simp [overlaps_with, Bool.or_comm]

theorem overlaps_symm {a b : Activity} (h : overlaps_with a b = false) :
    overlaps_with b a = false := by
  rw [overlaps_comm] at h; exact h

theorem overlaps_true_symm {a b : Activity} (h : overlaps_with a b = true) :
    overlaps_with b a = true := by
  rw [overlaps_comm] at h; exact h

theorem overlaps_of_le {a b : Activity} (h : a.endTime ≤ b.start) :
    overlaps_with a b = false := (overlaps_false_iff a b).mpr (Or.inl h)

/- ------------------------------------------------------------------ -/
/- Weight sums                                                        -/
/- ------------------------------------------------------------------ -/

theorem wsum_nil : wsum [] = 0 := rfl

theorem wsum_cons (a : Activity) (l : List Activity) :
    wsum (a :: l) = a.weight + wsum l := by
  simp [wsum]

theorem wsum_append (l1 l2 : List Activity) :
    wsum (l1 ++ l2) = wsum l1 + wsum l2 := by
  simp [wsum]

theorem wsum_perm {l1 l2 : List Activity} (h : l1.Perm l2) : wsum l1 = wsum l2 :=
  (h.map Activity.weight).sum_eq

theorem wsum_nonneg {l : List Activity} (h : ∀ a ∈ l, 0 ≤ a.weight) : 0 ≤ wsum l := by
  induction l with
  | nil => simp [wsum]
  | cons a t ih =>
    rw [wsum_cons]
    have := h a (List.mem_cons_self a t)
    have := ih (fun b hb => h b (List.mem_cons_of_mem a hb))
    linarith

/- ------------------------------------------------------------------ -/
/- WellFormed transfer                                                -/
/- ------------------------------------------------------------------ -/

theorem wellFormed_mem {l : List Activity} (h : WellFormed l) {a : Activity}
    (ha : a ∈ l) : a.start < a.endTime ∧ 0 ≤ a.weight := h a ha

theorem wellFormed_sublist {l1 l2 : List Activity} (h : WellFormed l2)
    (hs : l1.Sublist l2) : WellFormed l1 := fun a ha => h a (hs.mem ha)

theorem wellFormed_perm {l1 l2 : List Activity} (h : WellFormed l1)
    (hp : l1.Perm l2) : WellFormed l2 := fun a ha => h a (hp.mem_iff.mpr ha)

/- ------------------------------------------------------------------ -/
/- Sorting facts                                                      -/
/- ------------------------------------------------------------------ -/

theorem sortStart_perm (l : List Activity) : (sortStart l).Perm l :=
  List.perm_insertionSort startLE l

theorem sortStart_sorted (l : List Activity) : List.Sorted startLE (sortStart l) :=
  List.sorted_insertionSort startLE l

theorem sortEnd_perm (l : List Activity) : (sortEnd l).Perm l :=
  List.perm_insertionSort endLE l

theorem sortEnd_sorted (l : List Activity) : List.Sorted endLE (sortEnd l) :=
  List.sorted_insertionSort endLE l

theorem sortRatio_perm (l : List Activity) : (sortRatio l).Perm l :=
  List.perm_insertionSort ratioGE l

theorem noOverlap_perm {l1 l2 : List Activity} (h : NoOverlap l1) (hp : l1.Perm l2) :
    NoOverlap l2 :=
  (List.Perm.pairwise_iff (fun hab => overlaps_symm hab) hp).mp h

theorem noOverlap_sublist {l1 l2 : List Activity} (h : NoOverlap l2)
    (hs : l1.Sublist l2) : NoOverlap l1 := List.Pairwise.sublist hs h

/- ------------------------------------------------------------------ -/
/- Chains: the shape of every backtracking partial solution           -/
/- ------------------------------------------------------------------ -/

/-- A list of activities forms a valid schedule continuation after time
`le`: each activity starts no earlier than the previous one ends, the first
no earlier than `le`.  This is exactly the invariant of the backtracking
recursion's `last_end_time` argument. -/
def validFrom : List Activity → Int → Prop
  | [], _ => True
  | a :: rest, le => le ≤ a.start ∧ validFrom rest a.endTime

theorem validFrom_nil (le : Int) : validFrom [] le := trivial

theorem validFrom_start_ge {s : List Activity} {le : Int} (hv : validFrom s le)
    (hw : ∀ a ∈ s, a.start < a.endTime) : ∀ b ∈ s, le ≤ b.start := by
  induction s generalizing le with
  | nil => intro b hb; cases hb
  | cons a t ih =>
    intro b hb
    obtain ⟨h1, h2⟩ := hv
    rcases List.mem_cons.mp hb with rfl | hb
    · exact h1
    · have := ih h2 (fun x hx => hw x (List.mem_cons_of_mem a hx)) b hb
      have ha := hw a (List.mem_cons_self a t)
      omega

theorem validFrom_noOverlap {s : List Activity} {le : Int} (hv : validFrom s le)
    (hw : ∀ a ∈ s, a.start < a.endTime) : NoOverlap s := by
  induction s generalizing le with
  | nil => exact List.Pairwise.nil
  | cons a t ih =>
    obtain ⟨h1, h2⟩ := hv
    refine List.Pairwise.cons ?_ (ih h2 (fun x hx => hw x (List.mem_cons_of_mem a hx)))
    intro b hb
    exact overlaps_of_le (validFrom_start_ge h2
      (fun x hx => hw x (List.mem_cons_of_mem a hx)) b hb)

/-- A conflict-free sublist of a start-sorted well-formed list whose members
all start at or after `e` is a valid chain from `e`. -/
theorem noOverlap_validFrom {s : List Activity} {e : Int}
    (hsort : List.Sorted startLE s) (hw : ∀ a ∈ s, a.start < a.endTime)
    (hno : NoOverlap s) (hge : ∀ b ∈ s, e ≤ b.start) : validFrom s e := by
  induction s generalizing e with
  | nil => trivial
  | cons a t ih =>
    refine ⟨hge a (List.mem_cons_self a t), ?_⟩
    refine ih hsort.of_cons (fun x hx => hw x (List.mem_cons_of_mem a hx))
      (List.Pairwise.sublist (List.sublist_cons_self a t) hno) ?_
    intro b hb
    have hrel := List.rel_of_pairwise_cons hno hb
    rcases (overlaps_false_iff a b).mp hrel with h | h
    · exact h
    · have h1 := List.rel_of_sorted_cons hsort b hb
      have h2 := hw b (List.mem_cons.mpr (Or.inr hb))
      simp only [startLE] at h1
      omega

/-- The result of the `backtrack` recursion is either the incoming best
solution or the current partial solution extended by a valid chain over the
remaining activities. -/
theorem backtrack_shape (rem : List Activity) :
    ∀ (cur : List Activity) (curW : Rat) (le : Int) (best : List Activity × Rat),
      (∃ s, s.Sublist rem ∧ validFrom s le ∧
        (backtrack rem cur curW le best).1 = cur ++ s) ∨
      (backtrack rem cur curW le best).1 = best.1 := by
  induction rem with
  | nil =>
    intro cur curW le best
    simp only [backtrack]
    split_ifs with h
    · exact Or.inl ⟨[], List.Sublist.refl [], trivial, by simp⟩
    · exact Or.inr rfl
  | cons a rest ih =>
    intro cur curW le best
    simp only [backtrack]
    split_ifs with hp hc
    · exact Or.inr rfl
    · rcases ih (cur ++ [a]) (curW + a.weight) a.endTime
        (backtrack rest cur curW le best) with ⟨s, hs, hv, he⟩ | he
      · exact Or.inl ⟨a :: s, List.Sublist.cons₂ a hs, ⟨hc, hv⟩, by rw [he]; simp⟩
      · rw [he]
        rcases ih cur curW le best with ⟨s, hs, hv, he2⟩ | he2
        · exact Or.inl ⟨s, hs.trans (List.sublist_cons_self a rest), hv, he2⟩
        · exact Or.inr he2
    · rcases ih cur curW le best with ⟨s, hs, hv, he2⟩ | he2
      · exact Or.inl ⟨s, hs.trans (List.sublist_cons_self a rest), hv, he2⟩
      · exact Or.inr he2

/-- The optimal-schedule result is a valid chain from time 0 drawn from the
start-sorted input. -/
theorem optimal_schedule_shape (acts : List Activity) :
    ∃ s, s.Sublist (sortStart acts) ∧ validFrom s 0 ∧ optimal_schedule acts = s := by
  by_cases h : acts.isEmpty
  · exact ⟨[], List.nil_sublist _, trivial, by simp [optimal_schedule, h]⟩
  · rcases backtrack_shape (sortStart acts) [] 0 0 ([], 0) with ⟨s, hs, hv, he⟩ | he
    · exact ⟨s, hs, hv, by simp [optimal_schedule, h, he]⟩
    · exact ⟨[], List.nil_sublist _, trivial, by simp [optimal_schedule, h, he]⟩

/-- The set of mandatory ids contained in a solution list. -/
def mandIds (mand : Finset Int) : List Activity → Finset Int
  | [] => ∅
  | a :: rest => if a.id ∈ mand then insert a.id (mandIds mand rest) else mandIds mand rest

theorem mem_mandIds {mand : Finset Int} {s : List Activity} {m : Int} :
    m ∈ mandIds mand s ↔ ∃ a ∈ s, a.id = m ∧ a.id ∈ mand := by
  induction s with
  | nil => simp [mandIds]
  | cons a t ih =>
    by_cases h : a.id ∈ mand
    · simp only [mandIds, if_pos h, Finset.mem_insert, ih]
      constructor
      · rintro (rfl | ⟨b, hb, rfl, hbm⟩)
        · exact ⟨a, List.mem_cons_self a t, rfl, h⟩
        · exact ⟨b, List.mem_cons_of_mem a hb, rfl, hbm⟩
      · rintro ⟨b, hb, rfl, hbm⟩
        rcases List.mem_cons.mp hb with rfl | hb
        · exact Or.inl rfl
        · exact Or.inr ⟨b, hb, rfl, hbm⟩
    · simp only [mandIds, if_neg h, ih]
      constructor
      · rintro ⟨b, hb, rfl, hbm⟩
        exact ⟨b, List.mem_cons_of_mem a hb, rfl, hbm⟩
      · rintro ⟨b, hb, rfl, hbm⟩
        rcases List.mem_cons.mp hb with rfl | hb
        · exact absurd hbm h
        · exact ⟨b, hb, rfl, hbm⟩

/-- Shape of the constrained backtracking recursion: the result is either the
incoming best solution, or the current partial solution extended by a valid
chain whose mandatory ids complete `included` to exactly the mandatory set. -/
theorem btc_shape (mand : Finset Int) (rem : List Activity) :
    ∀ (cur : List Activity) (curW : Rat) (le : Int) (included : Finset Int)
      (best : List Activity × Rat),
      (∃ s, s.Sublist rem ∧ validFrom s le ∧
        (btc mand rem cur curW le included best).1 = cur ++ s ∧
        included ∪ mandIds mand s = mand) ∨
      (btc mand rem cur curW le included best).1 = best.1 := by
  induction rem with
  | nil =>
    intro cur curW le included best
    simp only [btc]
    split_ifs with h
    · exact Or.inl ⟨[], List.Sublist.refl [], trivial, by simp, by
        simp [mandIds, h.1]⟩
    · exact Or.inr rfl
  | cons a rest ih =>
    intro cur curW le included best
    simp only [btc]
    split_ifs with hc hm hm
    · -- take branch, a mandatory; skip branch not allowed
      rcases ih (cur ++ [a]) (curW + a.weight) a.endTime (insert a.id included)
        best with ⟨s, hs, hv, he, hmand⟩ | he
      · refine Or.inl ⟨a :: s, List.Sublist.cons₂ a hs, ⟨hc, hv⟩, by rw [he]; simp, ?_⟩
        rw [mandIds, if_pos hm, Finset.union_insert, ← Finset.insert_union, hmand]
      · exact Or.inr he
    · -- take branch, a not mandatory; best1 comes from the skip recursion
      rcases ih (cur ++ [a]) (curW + a.weight) a.endTime included
        (btc mand rest cur curW le included best) with ⟨s, hs, hv, he, hmand⟩ | he
      · refine Or.inl ⟨a :: s, List.Sublist.cons₂ a hs, ⟨hc, hv⟩, by rw [he]; simp, ?_⟩
        rw [mandIds, if_neg hm]
        exact hmand
      · rw [he]
        rcases ih cur curW le included best with ⟨s, hs, hv, he2, hmand⟩ | he2
        · exact Or.inl ⟨s, hs.trans (List.sublist_cons_self a rest), hv, he2, hmand⟩
        · exact Or.inr he2
    · -- cannot take, a mandatory: result is the unchanged best
      exact Or.inr rfl
    · -- cannot take, a not mandatory: result is the skip recursion
      rcases ih cur curW le included best with ⟨s, hs, hv, he2, hmand⟩ | he2
      · exact Or.inl ⟨s, hs.trans (List.sublist_cons_self a rest), hv, he2, hmand⟩
      · exact Or.inr he2

/-- Shape of `schedule_with_constraints`: every non-empty result is a valid
chain from 0 drawn from the start-sorted forbidden-filtered input, covering
exactly the mandatory ids. -/
theorem schedule_with_constraints_shape (acts : List Activity)
    (mand forb : Finset Int)
    (hne : schedule_with_constraints acts mand forb ≠ []) :
    ∃ s, s.Sublist (sortStart (acts.filter (fun a => decide (a.id ∉ forb)))) ∧
      validFrom s 0 ∧ schedule_with_constraints acts mand forb = s ∧
      mandIds mand s = mand := by
  by_cases h : acts.isEmpty
  · exact absurd (by simp [schedule_with_constraints, h]) hne
  · by_cases hf : is_feasible ((acts.filter (fun a => decide (a.id ∉ forb))).filter
      (fun a => decide (a.id ∈ mand))) = true
    · have heq : schedule_with_constraints acts mand forb =
        (btc mand (sortStart (acts.filter (fun a => decide (a.id ∉ forb)))) [] 0 0 ∅
          ([], 0)).1 := by
        rw [schedule_with_constraints, if_neg h, if_pos hf]
      rcases btc_shape mand (sortStart (acts.filter (fun a => decide (a.id ∉ forb))))
        [] 0 0 ∅ ([], 0) with ⟨s, hs, hv, he, hmand⟩ | he
      · exact ⟨s, hs, hv, by rw [heq, he]; simp, by simpa using hmand⟩
      · exact absurd (by rw [heq, he]) hne
    · have : schedule_with_constraints acts mand forb = [] := by
        rw [schedule_with_constraints, if_neg h, if_neg hf]
      exact absurd this hne

theorem validFrom_sorted_start_nonneg {s : List Activity}
    (hv : validFrom s 0) (hsort : List.Sorted startLE s) :
    ∀ b ∈ s, 0 ≤ b.start := by
  cases s with
  | nil => intro b hb; cases hb
  | cons a t =>
    intro b hb
    rcases List.mem_cons.mp hb with rfl | hb
    · exact hv.1
    · have h1 : (0 : Int) ≤ a.start := hv.1
      have h2 := List.rel_of_sorted_cons hsort b hb
      simp only [startLE] at h2
      omega

/-- C3: the conflict predicate is `NOT(a.end <= b.start OR b.end <= a.start)`
(half-open semantics, so touching intervals do not conflict), and the three
copies used by the solvers (`Activity.overlaps_with`,
`GraphColoringScheduler.has_time_conflict`, `ConflictFreeScheduler.has_conflict`)
compute the same function. -/
theorem conflict_predicate_spec (a b : Activity) :
    (overlaps_with a b = true ↔ ¬(a.endTime ≤ b.start ∨ b.endTime ≤ a.start)) ∧
    (a.endTime = b.start → overlaps_with a b = false) ∧
    has_time_conflict a b = overlaps_with a b ∧
    has_conflict a b = overlaps_with a b := by
  refine ⟨?_, ?_, rfl, rfl⟩
  · constructor
    · intro h hor
      rw [(overlaps_false_iff a b).mpr hor] at h
      cases h
    · intro h
      cases he : overlaps_with a b
      · exact absurd ((overlaps_false_iff a b).mp he) h
      · rfl
  · intro h
    exact overlaps_of_le (le_of_eq h)

/-- Witness for `conflict_predicate_spec` at a touching pair. -/
theorem conflict_predicate_spec_witness :
    overlaps_with ⟨1, 0, 5, 1⟩ ⟨2, 5, 9, 1⟩ = false :=
  (conflict_predicate_spec ⟨1, 0, 5, 1⟩ ⟨2, 5, 9, 1⟩).2.1 rfl

/-- C9: the dispatcher returns the empty list on any algorithm token outside
the four known ones. -/
theorem dispatcher_unknown_token_empty (algorithm : String) (acts : List Activity)
    (gaBest : Option (List Bool))
    (h1 : algorithm ≠ "graph-coloring") (h2 : algorithm ≠ "dynamic-prog")
    (h3 : algorithm ≠ "backtracking") (h4 : algorithm ≠ "genetic") :
    run_single_algorithm algorithm acts gaBest = [] := by
  rw [run_single_algorithm, if_neg h1, if_neg h2, if_neg h3, if_neg h4]

/-- Witness for `dispatcher_unknown_token_empty` at an unknown token. -/
theorem dispatcher_unknown_token_empty_witness :
    run_single_algorithm "greedy" workedExample none = [] :=
  dispatcher_unknown_token_empty "greedy" workedExample none
    (by decide) (by decide) (by decide) (by decide)

/-- C10: every activity returned by `optimal_schedule` or by
`schedule_with_constraints` has a non-negative start time: the recursion
starts `last_end_time` at 0 and only takes an activity when
`start >= last_end_time`, so (the input being start-sorted) an activity with
negative start time is never selected. -/
theorem backtracking_nonnegative_start (acts : List Activity) :
    (∀ a ∈ optimal_schedule acts, 0 ≤ a.start) ∧
    (∀ (mand forb : Finset Int), ∀ a ∈ schedule_with_constraints acts mand forb,
      0 ≤ a.start) := by
  constructor
  · obtain ⟨s, hs, hv, he⟩ := optimal_schedule_shape acts
    rw [he]
    exact validFrom_sorted_start_nonneg hv
      (List.Pairwise.sublist hs (sortStart_sorted acts))
  · intro mand forb a ha
    by_cases hne : schedule_with_constraints acts mand forb = []
    · rw [hne] at ha; cases ha
    · obtain ⟨s, hs, hv, he, _⟩ := schedule_with_constraints_shape acts mand forb hne
      rw [he] at ha
      exact validFrom_sorted_start_nonneg hv
        (List.Pairwise.sublist hs (sortStart_sorted _)) a ha

/-- Witness for `backtracking_nonnegative_start` on the worked example. -/
theorem backtracking_nonnegative_start_witness :
    0 ≤ (⟨1, 0, 90, 3⟩ : Activity).start :=
  (backtracking_nonnegative_start workedExample).1 ⟨1, 0, 90, 3⟩ (by
    norm_num [optimal_schedule, workedExample, backtrack, sortStart,
      List.insertionSort, List.orderedInsert, startLE, wsum])

/- ------------------------------------------------------------------ -/
/- The true optimum `optWeight`                                       -/
/- ------------------------------------------------------------------ -/

theorem foldr_max_nonneg (l : List Rat) : 0 ≤ l.foldr max 0 := by
  induction l with
  | nil => simp
  | cons x t ih => exact le_trans ih (le_max_right x _)

theorem le_foldr_max {l : List Rat} {x : Rat} (h : x ∈ l) : x ≤ l.foldr max 0 := by
  induction l with
  | nil => cases h
  | cons y t ih =>
    rcases List.mem_cons.mp h with rfl | h
    · exact le_max_left x _
    · exact le_trans (ih h) (le_max_right y _)

theorem foldr_max_attained (l : List Rat) : l.foldr max 0 = 0 ∨ l.foldr max 0 ∈ l := by
  induction l with
  | nil => exact Or.inl rfl
  | cons x t ih =>
    have hfold : (x :: t).foldr max 0 = max x (t.foldr max 0) := rfl
    rcases max_choice x (t.foldr max 0) with h | h
    · right; rw [hfold, h]; exact List.mem_cons_self x t
    · rcases ih with h0 | hm
      · left; rw [hfold, h, h0]
      · right; rw [hfold, h]; exact List.mem_cons_of_mem x hm

theorem optWeight_nonneg (acts : List Activity) : 0 ≤ optWeight acts :=
  foldr_max_nonneg _

/-- Dominance: any conflict-free sublist weighs at most the optimum. -/
theorem wsum_le_optWeight {s acts : List Activity} (hs : s.Sublist acts)
    (hno : NoOverlap s) : wsum s ≤ optWeight acts := by
  apply le_foldr_max
  apply List.mem_map_of_mem wsum
  rw [List.mem_filter]
  exact ⟨List.mem_sublists.mpr hs, by simpa using hno⟩

/-- Dominance up to permutation. -/
theorem wsum_le_optWeight_subperm {s acts : List Activity} (hs : s.Subperm acts)
    (hno : NoOverlap s) : wsum s ≤ optWeight acts := by
  obtain ⟨t, ht, hts⟩ := hs
  rw [wsum_perm ht.symm]
  exact wsum_le_optWeight hts (noOverlap_perm hno ht.symm)

/-- Attainment: the optimum is 0 or the weight of some conflict-free sublist. -/
theorem optWeight_attained (acts : List Activity) :
    optWeight acts = 0 ∨
    ∃ s, s.Sublist acts ∧ NoOverlap s ∧ optWeight acts = wsum s := by
  rcases foldr_max_attained ((acts.sublists.filter
    (fun s => decide (NoOverlap s))).map wsum) with h | h
  · exact Or.inl h
  · obtain ⟨s, hsmem, hs⟩ := List.mem_map.mp h
    rw [List.mem_filter] at hsmem
    exact Or.inr ⟨s, List.mem_sublists.mp hsmem.1, by simpa using hsmem.2, hs.symm⟩

theorem optWeight_mono {l1 l2 : List Activity} (h : l1.Sublist l2) :
    optWeight l1 ≤ optWeight l2 := by
  rcases optWeight_attained l1 with h0 | ⟨s, hs, hno, he⟩
  · rw [h0]; exact optWeight_nonneg l2
  · rw [he]; exact wsum_le_optWeight (hs.trans h) hno

/-- The optimum only depends on the input up to permutation. -/
theorem optWeight_perm {l1 l2 : List Activity} (h : l1.Perm l2) :
    optWeight l1 = optWeight l2 := by
  have key : ∀ {a b : List Activity}, a.Perm b → optWeight a ≤ optWeight b := by
    intro a b hab
    rcases optWeight_attained a with h0 | ⟨s, hs, hno, he⟩
    · rw [h0]; exact optWeight_nonneg b
    · rw [he]
      exact wsum_le_optWeight_subperm (hs.subperm.trans hab.subperm) hno
  exact le_antisymm (key h) (key h.symm)

/- ------------------------------------------------------------------ -/
/- Backtracking computes the optimum (over chains from `last_end`)    -/
/- ------------------------------------------------------------------ -/

/-- The best chain weight reachable from `le` inside `l`, mirroring the two
branches of the backtracking recursion without the pruning. -/
def bestChain : List Activity → Int → Rat
  | [], _ => 0
  | a :: rest, le =>
    if le ≤ a.start then max (bestChain rest le) (a.weight + bestChain rest a.endTime)
    else bestChain rest le

theorem bestChain_nonneg (l : List Activity) (le : Int) : 0 ≤ bestChain l le := by
  induction l generalizing le with
  | nil => exact le_refl 0
  | cons a rest ih =>
    rw [bestChain]
    split_ifs
    · exact le_trans (ih le) (le_max_left _ _)
    · exact ih le

theorem bestChain_le_wsum {l : List Activity} (hw : ∀ a ∈ l, 0 ≤ a.weight)
    (le : Int) : bestChain l le ≤ wsum l := by
  induction l generalizing le with
  | nil => exact le_refl 0
  | cons a rest ih =>
    rw [bestChain, wsum_cons]
    have h1 := ih (fun x hx => hw x (List.mem_cons_of_mem a hx)) le
    have h2 := ih (fun x hx => hw x (List.mem_cons_of_mem a hx)) a.endTime
    have h3 := hw a (List.mem_cons_self a rest)
    split_ifs
    · exact max_le (by linarith) (by linarith)
    · linarith

/-- Correctness of the pruned backtracking search: in any state whose
accumulators are consistent, the final best weight is the maximum of the
incoming best weight and the current weight plus the best remaining chain,
and the best solution list always sums to the best weight. -/
theorem backtrack_weight (rem : List Activity) :
    ∀ (cur : List Activity) (curW : Rat) (le : Int) (best : List Activity × Rat),
      (∀ a ∈ rem, 0 ≤ a.weight) → wsum cur = curW → wsum best.1 = best.2 →
      (backtrack rem cur curW le best).2 = max best.2 (curW + bestChain rem le) ∧
      wsum (backtrack rem cur curW le best).1 = (backtrack rem cur curW le best).2 := by
  induction rem with
  | nil =>
    intro cur curW le best _ hcur hbest
    simp only [backtrack, bestChain]
    split_ifs with h
    · constructor
      · rw [max_eq_right (by linarith)]
        exact (by linarith : curW = curW + 0) ▸ rfl
      · simpa using hcur
    · constructor
      · rw [add_zero, max_eq_left (by linarith)]
      · exact hbest
  | cons a rest ih =>
    intro cur curW le best hw hcur hbest
    simp only [backtrack]
    split_ifs with hp hc
    · -- pruned: nothing beyond `best.2` is reachable in this subtree
      have hmc := bestChain_le_wsum (fun x hx => hw x (List.mem_cons_of_mem a hx)) le
      have hmc2 := bestChain_le_wsum (fun x hx => hw x (List.mem_cons_of_mem a hx))
        a.endTime
      have hwa := hw a (List.mem_cons_self a rest)
      have hrest : wsum (a :: rest) = a.weight + wsum rest := wsum_cons a rest
      constructor
      · rw [bestChain]
        split_ifs with hc
        · have hmax : max (bestChain rest le) (a.weight + bestChain rest a.endTime) ≤
              a.weight + wsum rest := max_le (by linarith) (by linarith)
          rw [max_eq_left (by linarith)]
        · rw [max_eq_left (by linarith)]
      · exact hbest
    · -- take branch available
      obtain ⟨h1, h1s⟩ := ih cur curW le best
        (fun x hx => hw x (List.mem_cons_of_mem a hx)) hcur hbest
      obtain ⟨h2, h2s⟩ := ih (cur ++ [a]) (curW + a.weight) a.endTime
        (backtrack rest cur curW le best)
        (fun x hx => hw x (List.mem_cons_of_mem a hx))
        (by rw [wsum_append, hcur, wsum_cons, wsum_nil]; ring) h1s
      refine ⟨?_, h2s⟩
      rw [h2, h1, bestChain, if_pos hc, max_assoc]
      congr 1
      rw [add_assoc, max_add_add_left]
    · -- take branch unavailable
      obtain ⟨h1, h1s⟩ := ih cur curW le best
        (fun x hx => hw x (List.mem_cons_of_mem a hx)) hcur hbest
      refine ⟨?_, h1s⟩
      rw [h1, bestChain, if_neg hc]

theorem bestChain_attained (l : List Activity) :
    ∀ le : Int, ∃ s, s.Sublist l ∧ validFrom s le ∧ bestChain l le = wsum s := by
  induction l with
  | nil => exact fun le => ⟨[], List.Sublist.refl [], trivial, rfl⟩
  | cons a rest ih =>
    intro le
    rw [bestChain]
    split_ifs with hc
    · rcases max_choice (bestChain rest le) (a.weight + bestChain rest a.endTime)
        with h | h
      · obtain ⟨s, hs, hv, he⟩ := ih le
        exact ⟨s, hs.trans (List.sublist_cons_self a rest), hv, by rw [h, he]⟩
      · obtain ⟨s, hs, hv, he⟩ := ih a.endTime
        exact ⟨a :: s, List.Sublist.cons₂ a hs, ⟨hc, hv⟩, by
          rw [h, he, wsum_cons]⟩
    · obtain ⟨s, hs, hv, he⟩ := ih le
      exact ⟨s, hs.trans (List.sublist_cons_self a rest), hv, he⟩

theorem wsum_le_bestChain {s l : List Activity} {le : Int} (hs : s.Sublist l)
    (hv : validFrom s le) : wsum s ≤ bestChain l le := by
  induction l generalizing s le with
  | nil =>
    cases hs
    exact le_refl 0
  | cons a rest ih =>
    cases hs with
    | cons _ h =>
      have hle := ih h hv
      rw [bestChain]
      split_ifs
      · exact le_trans hle (le_max_left _ _)
      · exact hle
    | cons₂ _ h =>
      obtain ⟨h1, h2⟩ := hv
      rw [bestChain, if_pos h1, wsum_cons]
      exact le_trans (by linarith [ih h h2]) (le_max_right _ _)

/-- On a start-sorted, well-formed input with non-negative start times, the
best chain from 0 is exactly the true optimum. -/
theorem bestChain_eq_optWeight {l : List Activity} (hsort : List.Sorted startLE l)
    (hwf : WellFormed l) (hpos : ∀ a ∈ l, 0 ≤ a.start) :
    bestChain l 0 = optWeight l := by
  apply le_antisymm
  · obtain ⟨s, hs, hv, he⟩ := bestChain_attained l 0
    rw [he]
    exact wsum_le_optWeight hs
      (validFrom_noOverlap hv (fun x hx => (hwf x (hs.mem hx)).1))
  · rcases optWeight_attained l with h0 | ⟨s, hs, hno, he⟩
    · rw [h0]; exact bestChain_nonneg l 0
    · rw [he]
      apply wsum_le_bestChain hs
      exact noOverlap_validFrom (List.Pairwise.sublist hs hsort)
        (fun x hx => (hwf x (hs.mem hx)).1) hno (fun b hb => hpos b (hs.mem hb))

theorem optWeight_nil : optWeight [] = 0 := by
  simp [optWeight, wsum, NoOverlap]

/-- The backtracking solver returns a schedule of exactly the optimal total
weight, provided the input is well-formed with non-negative start times. -/
theorem optimal_schedule_weight {acts : List Activity} (hwf : WellFormed acts)
    (hpos : ∀ a ∈ acts, 0 ≤ a.start) :
    wsum (optimal_schedule acts) = optWeight acts := by
  by_cases h : acts.isEmpty
  · have : acts = [] := by cases acts <;> simp_all
    subst this
    simp [optimal_schedule, optWeight_nil, wsum]
  · rw [optimal_schedule, if_neg h]
    have hwf2 : WellFormed (sortStart acts) := wellFormed_perm hwf (sortStart_perm acts).symm
    obtain ⟨hval, hsum⟩ := backtrack_weight (sortStart acts) [] 0 0 ([], 0)
      (fun x hx => (hwf2 x hx).2) rfl rfl
    rw [hsum, hval]
    have : max (0 : Rat) (0 + bestChain (sortStart acts) 0) =
        bestChain (sortStart acts) 0 := by
      rw [zero_add]
      exact max_eq_right (bestChain_nonneg _ _)
    rw [this, bestChain_eq_optWeight (sortStart_sorted acts) hwf2
      (fun a ha => hpos a ((sortStart_perm acts).mem_iff.mp ha))]
    exact optWeight_perm (sortStart_perm acts)

/- ------------------------------------------------------------------ -/
/- DP solver computes the optimum                                     -/
/- ------------------------------------------------------------------ -/

/-- Sorted by non-increasing end time: the order in which the reconstruction
walks the end-sorted array (index `n-1` down to `0`). -/
def SortedDescEnd (l : List Activity) : Prop :=
  List.Pairwise (fun a b => b.endTime ≤ a.endTime) l

theorem sortEnd_reverse_sortedDesc (acts : List Activity) :
    SortedDescEnd (sortEnd acts).reverse := by
  rw [SortedDescEnd, List.pairwise_reverse]
  exact sortEnd_sorted acts

theorem sortedDescEnd_sublist {l1 l2 : List Activity} (h : SortedDescEnd l2)
    (hs : l1.Sublist l2) : SortedDescEnd l1 := List.Pairwise.sublist hs h

theorem sortedDescEnd_of_cons {a : Activity} {l : List Activity}
    (h : SortedDescEnd (a :: l)) : SortedDescEnd l :=
  h.sublist (List.sublist_cons_self a l)

theorem latestCompatible_sublist (a : Activity) (rest : List Activity) :
    (latestCompatible a rest).Sublist rest := List.dropWhile_sublist _

theorem latestCompatible_mem_le {a : Activity} {rest : List Activity}
    (hsort : SortedDescEnd rest) :
    ∀ b ∈ latestCompatible a rest, b.endTime ≤ a.start := by
  induction rest with
  | nil => intro b hb; cases hb
  | cons c t ih =>
    intro b hb
    rw [latestCompatible, List.dropWhile] at hb
    cases hdec : decide (a.start < c.endTime) with
    | false =>
      simp only [hdec] at hb
      have hc : c.endTime ≤ a.start := by
        have := of_decide_eq_false hdec
        omega
      rcases List.mem_cons.mp hb with rfl | hb
      · exact hc
      · have h1 := List.rel_of_pairwise_cons hsort hb
        omega
    | true =>
      simp only [hdec] at hb
      exact ih (sortedDescEnd_of_cons hsort) b hb

/-- A sublist all of whose members end before `a` starts is a sublist of the
compatible suffix. -/
theorem sublist_latestCompatible {a : Activity} {t rest : List Activity}
    (ht : t.Sublist rest) (hle : ∀ b ∈ t, b.endTime ≤ a.start) :
    t.Sublist (latestCompatible a rest) := by
  have hsplit := List.takeWhile_append_dropWhile
    (fun b => decide (a.start < b.endTime)) rest
  rw [← hsplit] at ht
  rcases List.sublist_append_iff.mp ht with ⟨t1, t2, hteq, ht1, ht2⟩
  cases t1 with
  | nil =>
    rw [List.nil_append] at hteq
    rw [hteq]
    exact ht2
  | cons x xs =>
    exfalso
    have hxt : x ∈ t := by
      rw [hteq]; exact List.mem_append.mpr (Or.inl (List.mem_cons_self x xs))
    have h1 := hle x hxt
    have h2 := List.mem_takeWhile_imp (ht1.mem (List.mem_cons_self x xs))
    simp only [decide_eq_true_eq] at h2
    omega

theorem dpCompute_nonneg : ∀ (n : Nat) (r : List Activity), r.length ≤ n →
    0 ≤ dpCompute r := by
  intro n
  induction n with
  | zero =>
    intro r hr
    rw [List.length_eq_zero.mp (Nat.le_zero.mp hr)]
    simp [dpCompute]
  | succ n ih =>
    intro r hr
    cases r with
    | nil => simp [dpCompute]
    | cons a rest =>
      rw [dpCompute]
      have hlen : rest.length ≤ n := by simpa using hr
      exact le_trans (ih rest hlen) (le_max_left _ _)

/-- Every conflict-free sublist of a well-formed, end-descending list weighs
at most the DP value. -/
theorem wsum_le_dpCompute : ∀ (n : Nat) (r : List Activity), r.length ≤ n →
    SortedDescEnd r → (∀ a ∈ r, a.start < a.endTime) →
    ∀ s, s.Sublist r → NoOverlap s → wsum s ≤ dpCompute r := by
  intro n
  induction n with
  | zero =>
    intro r hr _ _ s hs _
    have hre : r = [] := List.length_eq_zero.mp (Nat.le_zero.mp hr)
    subst hre
    cases hs
    simp [wsum, dpCompute]
  | succ n ih =>
    intro r hr hsort hwf s hs hno
    cases r with
    | nil =>
      cases hs
      simp [wsum, dpCompute]
    | cons a rest =>
      have hlen : rest.length ≤ n := by simpa using hr
      rw [dpCompute]
      cases hs with
      | cons _ h =>
        exact le_trans (ih rest hlen (sortedDescEnd_of_cons hsort)
          (fun x hx => hwf x (List.mem_cons_of_mem a hx)) s h hno) (le_max_left _ _)
      | cons₂ _ h =>
        rename_i t
        have hmem : ∀ b ∈ t, b.endTime ≤ a.start := by
          intro b hb
          have hrel := List.rel_of_pairwise_cons hno hb
          rcases (overlaps_false_iff a b).mp hrel with hcase | hcase
          · exfalso
            have h1 := List.rel_of_pairwise_cons hsort (h.mem hb)
            have h2 := (hwf b (List.mem_cons_of_mem a (h.mem hb)))
            omega
          · exact hcase
        have htlc : t.Sublist (latestCompatible a rest) :=
          sublist_latestCompatible h hmem
        have hlc := latestCompatible_sublist a rest
        have hlclen : (latestCompatible a rest).length ≤ n :=
          le_trans hlc.length_le hlen
        have hrec := ih (latestCompatible a rest) hlclen
          (sortedDescEnd_sublist (sortedDescEnd_of_cons hsort) hlc)
          (fun x hx => hwf x (List.mem_cons_of_mem a (hlc.mem hx)))
          t htlc (List.Pairwise.sublist (List.sublist_cons_self a t) hno)
        rw [wsum_cons]
        exact le_trans (by linarith) (le_max_right _ _)

/-- The DP value never exceeds the true optimum. -/
theorem dpCompute_le_optWeight : ∀ (n : Nat) (r : List Activity), r.length ≤ n →
    SortedDescEnd r → dpCompute r ≤ optWeight r := by
  intro n
  induction n with
  | zero =>
    intro r hr _
    rw [List.length_eq_zero.mp (Nat.le_zero.mp hr)]
    simp only [dpCompute]
    exact optWeight_nonneg []
  | succ n ih =>
    intro r hr hsort
    cases r with
    | nil =>
      simp only [dpCompute]
      exact optWeight_nonneg []
    | cons a rest =>
      have hlen : rest.length ≤ n := by simpa using hr
      rw [dpCompute]
      apply max_le
      · exact le_trans (ih rest hlen (sortedDescEnd_of_cons hsort))
          (optWeight_mono (List.sublist_cons_self a rest))
      · have hlc := latestCompatible_sublist a rest
        have hlclen : (latestCompatible a rest).length ≤ n :=
          le_trans hlc.length_le hlen
        have hle := ih (latestCompatible a rest) hlclen (sortedDescEnd_sublist (sortedDescEnd_of_cons hsort) hlc)
        rcases optWeight_attained (latestCompatible a rest) with h0 | ⟨s, hss, hsno, hse⟩
        · have : dpCompute (latestCompatible a rest) ≤ 0 := h0 ▸ hle
          have h1 : wsum [a] ≤ optWeight (a :: rest) :=
            wsum_le_optWeight (List.Sublist.cons₂ a (List.nil_sublist rest))
              (List.pairwise_singleton _ a)
          rw [wsum_cons, wsum_nil] at h1
          linarith
        · have hao : NoOverlap (a :: s) := by
            refine List.Pairwise.cons ?_ hsno
            intro b hb
            exact (overlaps_false_iff a b).mpr
              (Or.inr (latestCompatible_mem_le (sortedDescEnd_of_cons hsort) b (hss.mem hb)))
          have h1 : wsum (a :: s) ≤ optWeight (a :: rest) :=
            wsum_le_optWeight (List.Sublist.cons₂ a (hss.trans hlc)) hao
          rw [wsum_cons] at h1
          rw [hse] at hle
          linarith

/-- The reconstructed solution sums to exactly the DP value (no hypotheses:
the walk follows the branch the comparison actually certifies). -/
theorem reconstruct_wsum : ∀ (n : Nat) (r : List Activity), r.length ≤ n →
    wsum (reconstruct r) = dpCompute r := by
  intro n
  induction n with
  | zero =>
    intro r hr
    rw [List.length_eq_zero.mp (Nat.le_zero.mp hr)]
    simp [reconstruct, dpCompute, wsum]
  | succ n ih =>
    intro r hr
    cases r with
    | nil => simp [reconstruct, dpCompute, wsum]
    | cons a rest =>
      have hlen : rest.length ≤ n := by simpa using hr
      have hlclen : (latestCompatible a rest).length ≤ n :=
        le_trans (latestCompatible_sublist a rest).length_le hlen
      rw [reconstruct, dpCompute]
      split_ifs with hcmp
      · rw [wsum_cons, ih _ hlclen, max_eq_right hcmp]
      · rw [ih _ hlen, max_eq_left (le_of_not_le hcmp)]

theorem reconstruct_sublist : ∀ (n : Nat) (r : List Activity), r.length ≤ n →
    (reconstruct r).Sublist r := by
  intro n
  induction n with
  | zero =>
    intro r hr
    rw [List.length_eq_zero.mp (Nat.le_zero.mp hr)]
    simp [reconstruct]
  | succ n ih =>
    intro r hr
    cases r with
    | nil => simp [reconstruct]
    | cons a rest =>
      have hlen : rest.length ≤ n := by simpa using hr
      have hlclen : (latestCompatible a rest).length ≤ n :=
        le_trans (latestCompatible_sublist a rest).length_le hlen
      rw [reconstruct]
      split_ifs with hcmp
      · exact List.Sublist.cons₂ a
          ((ih _ hlclen).trans (latestCompatible_sublist a rest))
      · exact (ih _ hlen).trans (List.sublist_cons_self a rest)

/-- The reconstructed solution is conflict-free (under the end-descending
sort the walk only ever jumps into fully compatible suffixes). -/
theorem reconstruct_noOverlap : ∀ (n : Nat) (r : List Activity), r.length ≤ n →
    SortedDescEnd r → NoOverlap (reconstruct r) := by
  intro n
  induction n with
  | zero =>
    intro r hr _
    rw [List.length_eq_zero.mp (Nat.le_zero.mp hr)]
    simp [reconstruct]
    exact List.Pairwise.nil
  | succ n ih =>
    intro r hr hsort
    cases r with
    | nil =>
      simp only [reconstruct]
      exact List.Pairwise.nil
    | cons a rest =>
      have hlen : rest.length ≤ n := by simpa using hr
      have hlc := latestCompatible_sublist a rest
      have hlclen : (latestCompatible a rest).length ≤ n :=
        le_trans hlc.length_le hlen
      rw [reconstruct]
      split_ifs with hcmp
      · refine List.Pairwise.cons ?_ (ih _ hlclen (sortedDescEnd_sublist (sortedDescEnd_of_cons hsort) hlc))
        intro b hb
        have hbm : b ∈ latestCompatible a rest :=
          (reconstruct_sublist n _ hlclen).mem hb
        exact (overlaps_false_iff a b).mpr
          (Or.inr (latestCompatible_mem_le (sortedDescEnd_of_cons hsort) b hbm))
      · exact ih _ hlen (sortedDescEnd_of_cons hsort)

/-- The DP solver returns a schedule of exactly the optimal total weight on
well-formed inputs. -/
theorem solve_weighted_weight {acts : List Activity} (hwf : WellFormed acts) :
    wsum (solve_weighted_activity_selection acts) = optWeight acts := by
  by_cases h : acts.isEmpty
  · have : acts = [] := by cases acts <;> simp_all
    subst this
    simp [solve_weighted_activity_selection, optWeight_nil, wsum]
  · rw [solve_weighted_activity_selection, if_neg h]
    have hperm : ((sortEnd acts).reverse).Perm acts :=
      (List.reverse_perm (sortEnd acts)).trans (sortEnd_perm acts)
    have hsort := sortEnd_reverse_sortedDesc acts
    have hwfr : WellFormed (sortEnd acts).reverse := wellFormed_perm hwf hperm.symm
    have h1 : wsum ((reconstruct (sortEnd acts).reverse).reverse) =
        dpCompute (sortEnd acts).reverse := by
      rw [wsum_perm (List.reverse_perm _)]
      exact reconstruct_wsum _ _ (le_refl _)
    rw [h1]
    apply le_antisymm
    · exact le_trans (dpCompute_le_optWeight _ _ (le_refl _) hsort)
        (le_of_eq (optWeight_perm hperm))
    · rcases optWeight_attained acts with h0 | ⟨s, hs, hno, he⟩
      · rw [h0]
        exact dpCompute_nonneg _ _ (le_refl _)
      · rw [he]
        obtain ⟨t, htp, hts⟩ := hs.subperm.trans hperm.symm.subperm
        rw [wsum_perm htp.symm]
        exact wsum_le_dpCompute _ _ (le_refl _) hsort
          (fun x hx => (hwfr x hx).1) t hts (noOverlap_perm hno htp.symm)

/-- C2 (amended): on well-formed inputs with unique ids, at most 15
activities, and non-negative start times, the backtracking solver and the DP
solver report the same total weight, and both equal the true maximum weight
over all conflict-free subsets.  (Without `0 ≤ start` the claim fails, see
`bt_dp_disagree_negative_start`.) -/
theorem bt_dp_agree_optimal (acts : List Activity) (hwf : WellFormed acts)
    (hnodup : (acts.map Activity.id).Nodup) (hlen : acts.length ≤ 15)
    (hpos : ∀ a ∈ acts, 0 ≤ a.start) :
    wsum (optimal_schedule acts) = wsum (solve_weighted_activity_selection acts) ∧
    wsum (optimal_schedule acts) = optWeight acts := by
  have h1 := optimal_schedule_weight hwf hpos
  have h2 := solve_weighted_weight hwf
  exact ⟨by rw [h1, h2], h1⟩

/-- A single well-formed activity with a negative start time. -/
def negStartActivity : Activity := ⟨1, -10, -5, 1⟩

/-- Counterexample to C2 as stated: on the well-formed singleton input with
start time −10 (ids unique, n ≤ 15), the backtracking solver returns weight 0
(its `last_end_time` starts at 0, so the activity can never be taken) while
the DP solver returns weight 1, the true optimum. -/
theorem bt_dp_disagree_negative_start :
    WellFormed [negStartActivity] ∧ ([negStartActivity].map Activity.id).Nodup ∧
    [negStartActivity].length ≤ 15 ∧
    wsum (optimal_schedule [negStartActivity]) ≠
      wsum (solve_weighted_activity_selection [negStartActivity]) := by
  refine ⟨by decide, by decide, by decide, ?_⟩
  have hbt : optimal_schedule [negStartActivity] = [] := by
    norm_num [optimal_schedule, negStartActivity, sortStart, List.insertionSort,
      List.orderedInsert, backtrack, wsum, startLE]
  have hdp : solve_weighted_activity_selection [negStartActivity] =
      [negStartActivity] := by
    norm_num [solve_weighted_activity_selection, negStartActivity, sortEnd,
      List.insertionSort, List.orderedInsert, endLE, reconstruct, dpCompute,
      latestCompatible]
  rw [hbt, hdp]
  norm_num [wsum, negStartActivity]

/-- Witness for `bt_dp_agree_optimal` on the worked example. -/
theorem bt_dp_agree_optimal_witness :
    wsum (optimal_schedule workedExample) = optWeight workedExample :=
  (bt_dp_agree_optimal workedExample (by decide) (by decide) (by decide)
    (by decide)).2

/- ------------------------------------------------------------------ -/
/- C5: the inclusion-favoring reconstruction walk                     -/
/- ------------------------------------------------------------------ -/

/-- The spec's reconstruction walk, stated from the spec's words: starting
from the last index and walking downward, recompute the "with" and "without"
weights at each position; when `with >= without` (so in particular at ties)
the activity is included and the walk jumps to the latest compatible prefix,
and only when `without` is strictly greater is the activity skipped. -/
inductive reconWalk : List Activity → List Activity → Prop
  | nil : reconWalk [] []
  | take (a : Activity) (rest s : List Activity) :
      dpCompute rest ≤ a.weight + dpCompute (latestCompatible a rest) →
      reconWalk (latestCompatible a rest) s → reconWalk (a :: rest) (a :: s)
  | skip (a : Activity) (rest s : List Activity) :
      a.weight + dpCompute (latestCompatible a rest) < dpCompute rest →
      reconWalk rest s → reconWalk (a :: rest) s

theorem reconWalk_reconstruct : ∀ (n : Nat) (l : List Activity), l.length ≤ n →
    reconWalk l (reconstruct l) := by
  intro n
  induction n with
  | zero =>
    intro l hl
    rw [List.length_eq_zero.mp (Nat.le_zero.mp hl)]
    rw [reconstruct]
    exact reconWalk.nil
  | succ n ih =>
    intro l hl
    cases l with
    | nil =>
      rw [reconstruct]
      exact reconWalk.nil
    | cons a rest =>
      have hlen : rest.length ≤ n := by simpa using hl
      have hlclen : (latestCompatible a rest).length ≤ n :=
        le_trans (latestCompatible_sublist a rest).length_le hlen
      rw [reconstruct]
      split_ifs with hcmp
      · exact reconWalk.take a rest _ hcmp (ih _ hlclen)
      · exact reconWalk.skip a rest _ (lt_of_not_le hcmp) (ih _ hlen)

/-- C5: the DP reconstruction is exactly the inclusion-favoring walk — the
walk relation holds of precisely one output, the one `reconstruct` computes,
so ties (`with == without`) are always broken toward inclusion. -/
theorem dp_reconstruction_tiebreak (l s : List Activity) :
    reconWalk l s ↔ s = reconstruct l := by
  constructor
  · intro h
    induction h with
    | nil => rw [reconstruct]
    | take a rest s hle _ ihs => rw [reconstruct, if_pos hle, ihs]
    | skip a rest s hlt _ ihs => rw [reconstruct, if_neg (not_le.mpr hlt), ihs]
  · rintro rfl
    exact reconWalk_reconstruct l.length l (le_refl _)

/-- Witness for `dp_reconstruction_tiebreak`: the walk relation holds of the
reconstruction output on the worked example (end-sorted, reversed). -/
theorem dp_reconstruction_tiebreak_witness :
    reconWalk (sortEnd workedExample).reverse
      (reconstruct (sortEnd workedExample).reverse) :=
  (dp_reconstruction_tiebreak (sortEnd workedExample).reverse
    (reconstruct (sortEnd workedExample).reverse)).mpr rfl

/- ------------------------------------------------------------------ -/
/- Genetic solver lemmas                                              -/
/- ------------------------------------------------------------------ -/

/-- The adjacent-pair check implies the full pairwise ordering, because each
well-formed middle element bridges its neighbours. -/
theorem chainOK_pairwise : ∀ l : List Activity, chainOK l = true →
    (∀ a ∈ l, a.start < a.endTime) →
    List.Pairwise (fun x y => x.endTime ≤ y.start) l := by
  intro l
  induction l with
  | nil => intro _ _; exact List.Pairwise.nil
  | cons a rest ih =>
    intro hch hwf
    cases rest with
    | nil => exact List.pairwise_singleton _ a
    | cons b t =>
      rw [chainOK] at hch
      obtain ⟨h1, h2⟩ := Bool.and_eq_true_iff.mp hch
      have h1' : a.endTime ≤ b.start := of_decide_eq_true h1
      have hp := ih h2 (fun x hx => hwf x (List.mem_cons_of_mem a hx))
      refine List.Pairwise.cons ?_ hp
      intro y hy
      rcases List.mem_cons.mp hy with rfl | hy
      · exact h1'
      · have hb := hwf b (List.mem_cons_of_mem a (List.mem_cons_self b t))
        have h3 := List.rel_of_pairwise_cons hp hy
        omega

/-- `_is_conflict_free` accepting a well-formed list means the list really is
pairwise conflict-free. -/
theorem is_conflict_free_noOverlap {l : List Activity}
    (h : is_conflict_free l = true) (hwf : ∀ a ∈ l, a.start < a.endTime) :
    NoOverlap l := by
  rw [is_conflict_free] at h
  split_ifs at h with hlen
  · cases l with
    | nil => exact List.Pairwise.nil
    | cons a t =>
      cases t with
      | nil => exact List.pairwise_singleton _ a
      | cons b u => simp at hlen
  · have hperm := sortStart_perm l
    have hp := chainOK_pairwise (sortStart l) h
      (fun x hx => hwf x (hperm.mem_iff.mp hx))
    have hno : NoOverlap (sortStart l) :=
      hp.imp (fun hxy => (overlaps_false_iff _ _).mpr (Or.inl hxy))
    exact noOverlap_perm hno hperm

/-- The chromosome selection is a sublist of the activity list. -/
theorem get_selected_sublist : ∀ (acts : List Activity) (chrom : List Bool),
    (get_selected_activities acts chrom).Sublist acts := by
  intro acts
  induction acts with
  | nil => intro chrom; simp [get_selected_activities]
  | cons a rest ih =>
    intro chrom
    cases chrom with
    | nil => simp [get_selected_activities]
    | cons c cs =>
      rw [get_selected_activities, List.zip_cons_cons, List.filterMap_cons]
      cases c with
      | false =>
        simp only [if_neg Bool.false_ne_true]
        exact (ih cs).trans (List.sublist_cons_self a rest)
      | true =>
        simp only [if_pos rfl]
        exact List.Sublist.cons₂ a (ih cs)

theorem greedy_fold_noOverlap : ∀ (l sel : List Activity), NoOverlap sel →
    NoOverlap (l.foldl greedyInsert sel) := by
  intro l
  induction l with
  | nil => intro sel h; exact h
  | cons a rest ih =>
    intro sel h
    rw [List.foldl_cons]
    apply ih
    rw [greedyInsert]
    split_ifs with hany
    · exact h
    · rw [Bool.not_eq_true, List.any_eq_false] at hany
      rw [NoOverlap, List.pairwise_append]
      refine ⟨h, List.pairwise_singleton _ a, ?_⟩
      intro s hs b hb
      rw [List.mem_singleton] at hb
      subst hb
      have hsb := hany s hs
      have h2 : s.start < b.endTime → s.endTime ≤ b.start := by simpa using hsb
      rcases le_or_lt b.endTime s.start with hcase | hcase
      · exact (overlaps_false_iff s b).mpr (Or.inr hcase)
      · exact (overlaps_false_iff s b).mpr (Or.inl (h2 hcase))

theorem greedy_fold_sublist : ∀ (l sel : List Activity),
    (l.foldl greedyInsert sel).Sublist (sel ++ l) := by
  intro l
  induction l with
  | nil => intro sel; simp
  | cons a rest ih =>
    intro sel
    rw [List.foldl_cons, greedyInsert]
    split_ifs with hany
    · exact (ih sel).trans
        ((List.sublist_cons_self a rest).append_left sel)
    · have := ih (sel ++ [a])
      rw [List.append_assoc, List.singleton_append] at this
      exact this

theorem greedy_fallback_noOverlap (acts : List Activity) :
    NoOverlap (greedy_fallback acts) := by
  rw [greedy_fallback]
  split_ifs
  · exact List.Pairwise.nil
  · exact greedy_fold_noOverlap _ [] List.Pairwise.nil

theorem greedy_fallback_subperm (acts : List Activity) :
    (greedy_fallback acts).Subperm acts := by
  rw [greedy_fallback]
  split_ifs
  · exact (List.nil_sublist acts).subperm
  · have h := greedy_fold_sublist (sortRatio acts) []
    rw [List.nil_append] at h
    exact h.subperm.trans (sortRatio_perm acts).subperm

/-- C1-relevant: every outcome of the genetic solver is conflict-free. -/
theorem evolve_schedule_noOverlap (acts : List Activity)
    (hwf : WellFormed acts) (best : Option (List Bool)) :
    NoOverlap (evolve_schedule acts best) := by
  rw [evolve_schedule.eq_def]
  split_ifs with hempty
  · exact List.Pairwise.nil
  · cases best with
    | none => exact greedy_fallback_noOverlap acts
    | some c =>
      show NoOverlap (if is_conflict_free (get_selected_activities acts c) = true
        then get_selected_activities acts c else greedy_fallback acts)
      split_ifs with hicf
      · exact is_conflict_free_noOverlap hicf
          (fun x hx => (hwf x ((get_selected_sublist acts c).mem hx)).1)
      · exact greedy_fallback_noOverlap acts

theorem wsum_nonneg_of_wf {l acts : List Activity} (hwf : WellFormed acts)
    (hs : l.Subperm acts) : 0 ≤ wsum l :=
  wsum_nonneg (fun a ha => ((wellFormed_perm hwf (List.Perm.refl acts)) a
    (hs.subset ha)).2)

/-- C4 (amended): for every random outcome of the genetic solver on a
well-formed input, the result weight never exceeds the weight reported by the
DP solver (the exact optimum); and the lower bound by the greedy fallback
holds exactly on the fallback path: when no feasible individual was ever
recorded, or the recorded best is not conflict-free, the result is the greedy
fallback itself.  (The unconditional lower bound of the original claim fails:
see `ga_beats_greedy_fails`.) -/
theorem ga_bounds (acts : List Activity) (best : Option (List Bool))
    (hwf : WellFormed acts) :
    wsum (evolve_schedule acts best) ≤
      wsum (solve_weighted_activity_selection acts) ∧
    evolve_schedule acts none = greedy_fallback acts ∧
    (∀ c, best = some c →
      is_conflict_free (get_selected_activities acts c) = false →
      evolve_schedule acts best = greedy_fallback acts) := by
  have hdp := solve_weighted_weight hwf
  have hgf : wsum (greedy_fallback acts) ≤ optWeight acts :=
    wsum_le_optWeight_subperm (greedy_fallback_subperm acts)
      (greedy_fallback_noOverlap acts)
  refine ⟨?_, ?_, ?_⟩
  · rw [hdp, evolve_schedule.eq_def]
    split_ifs with hempty
    · exact optWeight_nonneg acts
    · cases best with
      | none => exact hgf
      | some c =>
        show wsum (if is_conflict_free (get_selected_activities acts c) = true
          then get_selected_activities acts c else greedy_fallback acts) ≤
          optWeight acts
        split_ifs with hicf
        · exact wsum_le_optWeight (get_selected_sublist acts c)
            (is_conflict_free_noOverlap hicf
              (fun x hx => (hwf x ((get_selected_sublist acts c).mem hx)).1))
        · exact hgf
  · rw [evolve_schedule.eq_def]
    split_ifs with hempty
    · have : acts = [] := by cases acts <;> simp_all
      subst this
      rw [greedy_fallback]
      simp
    · rfl
  · intro c hc hicf
    subst hc
    rw [evolve_schedule.eq_def]
    split_ifs with hempty
    · have : acts = [] := by cases acts <;> simp_all
      subst this
      rw [greedy_fallback]
      simp
    · show (if is_conflict_free (get_selected_activities acts c) = true
        then get_selected_activities acts c else greedy_fallback acts) =
        greedy_fallback acts
      rw [if_neg (by rw [hicf]; exact Bool.false_ne_true)]

/-- A single activity: the GA can validly settle on the empty individual. -/
def singleHeavy : Activity := ⟨1, 0, 10, 5⟩

/-- Counterexample to C4 as stated: the all-false chromosome is a feasible
individual (reachable e.g. when the whole initial population is all-false and
no mutation fires), the solver then returns the empty selection of weight 0,
strictly below its own greedy fallback's weight 5. -/
theorem ga_beats_greedy_fails :
    WellFormed [singleHeavy] ∧
    wsum (evolve_schedule [singleHeavy] (some [false])) <
      wsum (greedy_fallback [singleHeavy]) := by
  constructor
  · decide
  · have h1 : evolve_schedule [singleHeavy] (some [false]) = [] := by
      norm_num [evolve_schedule, singleHeavy, get_selected_activities,
        is_conflict_free]
    have h2 : greedy_fallback [singleHeavy] = [singleHeavy] := by
      norm_num [greedy_fallback, singleHeavy, sortRatio, List.insertionSort,
        List.orderedInsert, greedyInsert]
    rw [h1, h2]
    norm_num [wsum, singleHeavy]

/-- Witness for `ga_bounds` on the worked example with a concrete outcome. -/
theorem ga_bounds_witness :
    wsum (evolve_schedule workedExample (some [true, false, true])) ≤
      wsum (solve_weighted_activity_selection workedExample) :=
  (ga_bounds workedExample (some [true, false, true]) (by decide)).1

/- ------------------------------------------------------------------ -/
/- Graph-coloring serialization lemmas                                -/
/- ------------------------------------------------------------------ -/

/-- The placement loop puts activities strictly after one another, inside
`[t, cursor)`, with positive durations when the originals are well-formed. -/
theorem placeAll_spec : ∀ (l : List Activity) (t : Int),
    (∀ a ∈ l, a.start < a.endTime) →
    List.Pairwise (fun x y => x.endTime < y.start) (placeAll l t).1 ∧
    (∀ x ∈ (placeAll l t).1, t ≤ x.start ∧ x.start < x.endTime ∧
      x.endTime < (placeAll l t).2) ∧
    t ≤ (placeAll l t).2 := by
  intro l
  induction l with
  | nil =>
    intro t _
    exact ⟨List.Pairwise.nil, fun x hx => absurd hx (List.not_mem_nil x), le_refl t⟩
  | cons a rest ih =>
    intro t hwf
    have hwfa := hwf a (List.mem_cons_self a rest)
    obtain ⟨hp, hmem, hcur⟩ := ih (t + (a.endTime - a.start) + 1)
      (fun x hx => hwf x (List.mem_cons_of_mem a hx))
    simp only [placeAll]
    refine ⟨?_, ?_, ?_⟩
    · refine List.Pairwise.cons ?_ hp
      intro y hy
      have := (hmem y hy).1
      simp only
      omega
    · intro x hx
      rcases List.mem_cons.mp hx with rfl | hx
      · simp only
        constructor
        · omega
        constructor
        · omega
        · have := hcur
          omega
      · obtain ⟨h1, h2, h3⟩ := hmem x hx
        refine ⟨by omega, h2, h3⟩
    · have := hcur
      omega

theorem scheduleGroups_spec : ∀ (gs : List (Nat × List Activity)) (t : Int),
    (∀ p ∈ gs, ∀ a ∈ p.2, a.start < a.endTime) →
    List.Pairwise (fun x y => x.endTime < y.start) (scheduleGroups gs t) ∧
    ∀ x ∈ scheduleGroups gs t, t ≤ x.start := by
  intro gs
  induction gs with
  | nil =>
    intro t _
    exact ⟨List.Pairwise.nil, fun x hx => absurd hx (List.not_mem_nil x)⟩
  | cons g gs ih =>
    intro t hwf
    have hwfg : ∀ a ∈ sortStart g.2, a.start < a.endTime :=
      fun a ha => hwf g (List.mem_cons_self g gs) a ((sortStart_perm g.2).mem_iff.mp ha)
    obtain ⟨hp1, hmem1, hcur1⟩ := placeAll_spec (sortStart g.2) t hwfg
    obtain ⟨hp2, hmem2⟩ := ih (placeAll (sortStart g.2) t).2
      (fun p hp => hwf p (List.mem_cons_of_mem g hp))
    rw [scheduleGroups]
    refine ⟨?_, ?_⟩
    · rw [List.pairwise_append]
      refine ⟨hp1, hp2, ?_⟩
      intro x hx y hy
      have h1 := (hmem1 x hx).2.2
      have h2 := hmem2 y hy
      omega
    · intro x hx
      rcases List.mem_append.mp hx with hx | hx
      · exact (hmem1 x hx).1
      · have h1 := hmem2 x hx
        have := hcur1
        omega

theorem addToGroup_prop {P : Activity → Prop} {gs : List (Nat × List Activity)}
    {c : Nat} {a : Activity} (hgs : ∀ p ∈ gs, ∀ x ∈ p.2, P x) (ha : P a) :
    ∀ p ∈ addToGroup gs c a, ∀ x ∈ p.2, P x := by
  intro p hp x hx
  rw [addToGroup] at hp
  split_ifs at hp with hany
  · rcases List.mem_map.mp hp with ⟨q, hq, hqe⟩
    by_cases hqc : q.1 = c
    · rw [if_pos hqc] at hqe
      subst hqe
      rcases List.mem_append.mp hx with hx | hx
      · exact hgs q hq x hx
      · rw [List.mem_singleton] at hx
        subst hx
        exact ha
    · rw [if_neg hqc] at hqe
      subst hqe
      exact hgs q hq x hx
  · rcases List.mem_append.mp hp with hp | hp
    · exact hgs p hp x hx
    · rw [List.mem_singleton] at hp
      subst hp
      rw [List.mem_singleton] at hx
      subst hx
      exact ha

theorem colorGroups_fold_prop (P : Activity → Prop) (cm : Int → Option Nat) :
    ∀ (l : List Activity) (gs : List (Nat × List Activity)),
    (∀ p ∈ gs, ∀ x ∈ p.2, P x) → (∀ a ∈ l, P a) →
    ∀ p ∈ l.foldl (fun gs a => addToGroup gs ((cm a.id).getD 0) a) gs,
      ∀ x ∈ p.2, P x := by
  intro l
  induction l with
  | nil => intro gs hgs _; exact hgs
  | cons a rest ih =>
    intro gs hgs hl
    rw [List.foldl_cons]
    exact ih _ (addToGroup_prop hgs (hl a (List.mem_cons_self a rest)))
      (fun x hx => hl x (List.mem_cons_of_mem a hx))

theorem colorGroups_prop (P : Activity → Prop) (acts : List Activity)
    (cm : Int → Option Nat) (hl : ∀ a ∈ acts, P a) :
    ∀ p ∈ colorGroups acts cm, ∀ x ∈ p.2, P x :=
  colorGroups_fold_prop P cm acts []
    (fun p hp => absurd hp (List.not_mem_nil p)) hl

/-- C1-relevant: the graph-coloring output (on its remapped times) is
pairwise conflict-free. -/
theorem coloring_schedule_noOverlap (acts : List Activity)
    (hwf : WellFormed acts) : NoOverlap (coloring_schedule acts) := by
  rw [coloring_schedule]
  split_ifs with hempty
  · exact List.Pairwise.nil
  · have hgwf := colorGroups_prop (fun a => a.start < a.endTime) acts
      (assign_colors acts (build_conflict_graph acts)) (fun a ha => (hwf a ha).1)
    obtain ⟨hp, _⟩ := scheduleGroups_spec _ 0 hgwf
    exact hp.imp (fun hxy => (overlaps_false_iff _ _).mpr (Or.inl (le_of_lt hxy)))

/-- C1: for every well-formed input, every solver returns a pairwise
conflict-free result: the graph-coloring solver on its remapped times, the
DP, backtracking and (for every random outcome) genetic solvers on the
original times. -/
theorem all_solvers_conflict_free (acts : List Activity) (hwf : WellFormed acts) :
    NoOverlap (coloring_schedule acts) ∧
    NoOverlap (solve_weighted_activity_selection acts) ∧
    NoOverlap (optimal_schedule acts) ∧
    ∀ best : Option (List Bool), NoOverlap (evolve_schedule acts best) := by
  refine ⟨coloring_schedule_noOverlap acts hwf, ?_, ?_, evolve_schedule_noOverlap acts hwf⟩
  · rw [solve_weighted_activity_selection]
    split_ifs with hempty
    · exact List.Pairwise.nil
    · have hno := reconstruct_noOverlap (sortEnd acts).reverse.length _
        (le_refl _) (sortEnd_reverse_sortedDesc acts)
      exact noOverlap_perm hno (List.reverse_perm _).symm
  · obtain ⟨s, hs, hv, he⟩ := optimal_schedule_shape acts
    rw [he]
    exact validFrom_noOverlap hv
      (fun x hx => (hwf x ((sortStart_perm acts).subset (hs.mem hx))).1)

/-- Witness for `all_solvers_conflict_free` on the worked example. -/
theorem all_solvers_conflict_free_witness :
    NoOverlap (optimal_schedule workedExample) :=
  (all_solvers_conflict_free workedExample (by decide)).2.2.1

/-- C6: (i) when the mandatory activities surviving the forbidden filter are
pairwise conflicting (two or more of them), `schedule_with_constraints`
returns the empty list straight from the feasibility pre-check; (ii) every
non-empty result covers every mandatory id and excludes every forbidden id;
(iii) on the worked example, mandatory `{1, 2}` yields the empty result and
mandatory `{2}` yields a non-empty result containing activity 2. -/
theorem constrained_backtracking_spec :
    (∀ (acts : List Activity) (mand forb : Finset Int),
      2 ≤ ((acts.filter (fun a => decide (a.id ∉ forb))).filter
        (fun a => decide (a.id ∈ mand))).length →
      List.Pairwise (fun a b => overlaps_with a b = true)
        ((acts.filter (fun a => decide (a.id ∉ forb))).filter
          (fun a => decide (a.id ∈ mand))) →
      schedule_with_constraints acts mand forb = []) ∧
    (∀ (acts : List Activity) (mand forb : Finset Int),
      schedule_with_constraints acts mand forb ≠ [] →
      (∀ m ∈ mand, ∃ a ∈ schedule_with_constraints acts mand forb, a.id = m) ∧
      (∀ a ∈ schedule_with_constraints acts mand forb, a.id ∉ forb)) ∧
    schedule_with_constraints workedExample {1, 2} ∅ = [] ∧
    schedule_with_constraints workedExample {2} ∅ ≠ [] ∧
    (∃ a ∈ schedule_with_constraints workedExample {2} ∅, a.id = 2) := by
  have hex2 : schedule_with_constraints workedExample {2} ∅ = [⟨2, 50, 140, 1⟩] := by
    norm_num [schedule_with_constraints, workedExample, is_feasible, chainOK, btc,
      sortStart, List.insertionSort, List.orderedInsert, startLE]
  refine ⟨?_, ?_, ?_, ?_, ?_⟩
  · intro acts mand forb hlen hpair
    by_cases hem : acts.isEmpty
    · rw [schedule_with_constraints, if_pos hem]
    · have hfeas : is_feasible ((acts.filter (fun a => decide (a.id ∉ forb))).filter
          (fun a => decide (a.id ∈ mand))) = false := by
        rw [is_feasible, if_neg (by omega)]
        have hpair2 := (List.Perm.pairwise_iff
          (fun h => overlaps_true_symm h)
          (sortStart_perm ((acts.filter (fun a => decide (a.id ∉ forb))).filter
            (fun a => decide (a.id ∈ mand))))).mpr hpair
        have hlen2 := (sortStart_perm ((acts.filter
          (fun a => decide (a.id ∉ forb))).filter
            (fun a => decide (a.id ∈ mand)))).length_eq
        cases hsm : sortStart ((acts.filter (fun a => decide (a.id ∉ forb))).filter
            (fun a => decide (a.id ∈ mand))) with
        | nil =>
          rw [hsm] at hlen2
          simp only [List.length_nil] at hlen2
          omega
        | cons a t =>
          cases t with
          | nil =>
            rw [hsm] at hlen2
            simp only [List.length_cons, List.length_nil] at hlen2
            omega
          | cons b u =>
            rw [hsm] at hpair2
            have hab : overlaps_with a b = true :=
              List.rel_of_pairwise_cons hpair2 (List.mem_cons_self b u)
            rw [chainOK]
            have hgt : ¬(a.endTime ≤ b.start) := by
              intro hle
              rw [overlaps_of_le hle] at hab
              cases hab
            simp [hgt]
      rw [schedule_with_constraints, if_neg hem,
        if_neg (by rw [hfeas]; exact Bool.false_ne_true)]
  · intro acts mand forb hne
    obtain ⟨s, hs, _, he, hmand⟩ :=
      schedule_with_constraints_shape acts mand forb hne
    constructor
    · intro m hm
      have : m ∈ mandIds mand s := by rw [hmand]; exact hm
      obtain ⟨a, ha, hae, _⟩ := mem_mandIds.mp this
      exact ⟨a, by rw [he]; exact ha, hae⟩
    · intro a ha
      rw [he] at ha
      have hmem := (sortStart_perm _).subset (hs.mem ha)
      rw [List.mem_filter] at hmem
      exact of_decide_eq_true hmem.2
  · norm_num [schedule_with_constraints, workedExample, is_feasible, chainOK,
      sortStart, List.insertionSort, List.orderedInsert, startLE]
  · rw [hex2]
    simp
  · rw [hex2]
    exact ⟨⟨2, 50, 140, 1⟩, List.mem_singleton.mpr rfl, rfl⟩

/-- Witness for `constrained_backtracking_spec`: its general early-return
component applied to the worked example with mandatory set `{1, 2}`. -/
theorem constrained_backtracking_spec_witness :
    schedule_with_constraints workedExample {1, 2} ∅ = [] :=
  constrained_backtracking_spec.1 workedExample {1, 2} ∅ (by decide) (by decide)

/- ------------------------------------------------------------------ -/
/- Greedy coloring lemmas                                             -/
/- ------------------------------------------------------------------ -/

theorem nextColor_spec (used : List Nat) :
    nextColor used ∉ used ∧ ∀ d < nextColor used, d ∈ used := by
  have hfil :
      ((List.range (used.length + 1)).filter (fun c => !(used.contains c))) ≠ [] := by
    intro hnil
    have hsub : ∀ c ∈ List.range (used.length + 1), c ∈ used := by
      intro c hc
      by_contra hcu
      have hcmem : c ∈ (List.range (used.length + 1)).filter
          (fun c => !(used.contains c)) := by
        rw [List.mem_filter]
        refine ⟨hc, ?_⟩
        simp only [Bool.not_eq_true']
        exact (Bool.not_eq_true _).mp (fun he => hcu (List.elem_iff.mp he))
      rw [hnil] at hcmem
      cases hcmem
    have hcard := (List.subperm_of_subset (List.nodup_range _) hsub).length_le
    rw [List.length_range] at hcard
    omega
  have hsorted : List.Pairwise (· < ·)
      ((List.range (used.length + 1)).filter (fun c => !(used.contains c))) :=
    List.Pairwise.sublist (List.filter_sublist _) (List.pairwise_lt_range _)
  cases hfe : (List.range (used.length + 1)).filter (fun c => !(used.contains c)) with
  | nil => exact absurd hfe hfil
  | cons h t =>
    have hnc : nextColor used = h := by rw [nextColor, hfe]; rfl
    have hhmem : h ∈ (List.range (used.length + 1)).filter
        (fun c => !(used.contains c)) := by
      rw [hfe]; exact List.mem_cons_self h t
    rw [List.mem_filter] at hhmem
    constructor
    · rw [hnc]
      intro hmem
      have hfalse := hhmem.2
      simp only [Bool.not_eq_true'] at hfalse
      have h2 : used.contains h = true := List.elem_iff.mpr hmem
      rw [hfalse] at h2
      exact Bool.false_ne_true h2
    · intro d hd
      rw [hnc] at hd
      by_contra hdu
      have hdmem : d ∈ (List.range (used.length + 1)).filter
          (fun c => !(used.contains c)) := by
        rw [List.mem_filter]
        have hh : h < used.length + 1 := List.mem_range.mp hhmem.1
        refine ⟨List.mem_range.mpr (by omega), ?_⟩
        simp only [Bool.not_eq_true']
        exact (Bool.not_eq_true _).mp (fun he => hdu (List.elem_iff.mp he))
      rw [hfe] at hdmem
      rw [hfe] at hsorted
      rcases List.mem_cons.mp hdmem with rfl | hdmem
      · omega
      · have := List.rel_of_pairwise_cons hsorted hdmem
        omega

theorem assign_fold_persist (g : Int → List Int) :
    ∀ (l : List Activity) (cm : Int → Option Nat) (x : Int),
    (∀ b ∈ l, b.id ≠ x) → (l.foldl (assignStep g) cm) x = cm x := by
  intro l
  induction l with
  | nil => intro cm x _; rfl
  | cons a rest ih =>
    intro cm x hne
    rw [List.foldl_cons]
    rw [ih _ x (fun b hb => hne b (List.mem_cons_of_mem a hb))]
    rw [assignStep]
    simp only
    rw [if_neg (fun he => hne a (List.mem_cons_self a rest) he.symm)]

theorem assign_fold_domain (g : Int → List Int) :
    ∀ (l : List Activity) (cm : Int → Option Nat) (x : Int) (d : Nat),
    (l.foldl (assignStep g) cm) x = some d →
    cm x = some d ∨ ∃ b ∈ l, b.id = x := by
  intro l
  induction l with
  | nil => intro cm x d h; exact Or.inl h
  | cons a rest ih =>
    intro cm x d h
    rw [List.foldl_cons] at h
    rcases ih _ x d h with hstep | ⟨b, hb, hbe⟩
    · rw [assignStep] at hstep
      simp only at hstep
      by_cases hxa : x = a.id
      · exact Or.inr ⟨a, List.mem_cons_self a rest, hxa.symm⟩
      · rw [if_neg hxa] at hstep
        exact Or.inl hstep
    · exact Or.inr ⟨b, List.mem_cons_of_mem a hb, hbe⟩

theorem assign_fold_some (g : Int → List Int) :
    ∀ (l : List Activity) (cm : Int → Option Nat) (x : Int),
    (∃ d, cm x = some d) → ∃ d, (l.foldl (assignStep g) cm) x = some d := by
  intro l
  induction l with
  | nil => intro cm x h; exact h
  | cons a rest ih =>
    intro cm x h
    rw [List.foldl_cons]
    apply ih
    rw [assignStep]
    simp only
    by_cases hxa : x = a.id
    · exact ⟨_, by rw [if_pos hxa]⟩
    · rw [if_neg hxa]
      exact h

theorem assign_fold_mem_some (g : Int → List Int) :
    ∀ (l : List Activity) (cm : Int → Option Nat) (b : Activity), b ∈ l →
    ∃ d, (l.foldl (assignStep g) cm) b.id = some d := by
  intro l
  induction l with
  | nil => intro cm b hb; cases hb
  | cons a rest ih =>
    intro cm b hb
    rw [List.foldl_cons]
    rcases List.mem_cons.mp hb with rfl | hb
    · apply assign_fold_some
      refine ⟨nextColor ((g b.id).filterMap cm), ?_⟩
      rw [assignStep]
      simp
    · exact ih _ b hb

/-- Splitting a no-duplicate-ids list around one element. -/
theorem nodup_ids_split {acts pre post : List Activity} {a : Activity}
    (hnodup : (acts.map Activity.id).Nodup) (heq : acts = pre ++ a :: post) :
    (∀ x ∈ post, x.id ≠ a.id) ∧ (∀ b ∈ pre, ∀ x ∈ a :: post, x.id ≠ b.id) := by
  subst heq
  rw [List.map_append, List.nodup_append] at hnodup
  obtain ⟨hpre, hmid, hdisj⟩ := hnodup
  constructor
  · intro x hx he
    rw [List.map_cons] at hmid
    have := List.rel_of_pairwise_cons hmid (List.mem_map_of_mem Activity.id hx)
    exact this he.symm
  · intro b hb x hx he
    exact hdisj (List.mem_map_of_mem Activity.id hb)
      (by rw [List.map_cons]
          rcases List.mem_cons.mp hx with rfl | hx
          · exact he ▸ List.mem_cons_self _ _
          · exact he ▸ List.mem_cons_of_mem _ (List.mem_map_of_mem Activity.id hx))

theorem allPairs_mem_of_split :
    ∀ (pre post : List Activity) (b a : Activity), b ∈ pre →
    (b, a) ∈ allPairs (pre ++ a :: post) := by
  intro pre
  induction pre with
  | nil => intro post b a hb; cases hb
  | cons x xs ih =>
    intro post b a hb
    rw [List.cons_append, allPairs]
    rcases List.mem_cons.mp hb with rfl | hb
    · exact List.mem_append.mpr (Or.inl (List.mem_map_of_mem _
        (List.mem_append.mpr (Or.inr (List.mem_cons_self a post)))))
    · exact List.mem_append.mpr (Or.inr (ih post b a hb))

theorem addEdge_mono {g : Int → List Int} {x y u v : Int} (h : y ∈ g x) :
    y ∈ addEdge g u v x := by
  rw [addEdge]
  split_ifs with hxu
  · subst hxu
    exact List.mem_append.mpr (Or.inl h)
  · exact h

theorem graph_step_mono {g : Int → List Int} {x y : Int}
    (p : Activity × Activity) (h : y ∈ g x) :
    y ∈ (if has_time_conflict p.1 p.2 then
      addEdge (addEdge g p.1.id p.2.id) p.2.id p.1.id else g) x := by
  split_ifs
  · exact addEdge_mono (addEdge_mono h)
  · exact h

theorem graph_fold_mono :
    ∀ (ps : List (Activity × Activity)) (g : Int → List Int) (x y : Int), y ∈ g x →
    y ∈ (ps.foldl (fun g p =>
      if has_time_conflict p.1 p.2 then addEdge (addEdge g p.1.id p.2.id) p.2.id p.1.id
      else g) g) x := by
  intro ps
  induction ps with
  | nil => intro g x y h; exact h
  | cons p ps ih =>
    intro g x y h
    rw [List.foldl_cons]
    exact ih _ x y (graph_step_mono p h)

/-- A conflicting pair that the double loop visits ends up as an edge (from
the second element's adjacency list to the first's id). -/
theorem graph_fold_edge :
    ∀ (ps : List (Activity × Activity)) (g : Int → List Int) (b a : Activity),
    (b, a) ∈ ps → has_time_conflict b a = true → b.id ≠ a.id →
    b.id ∈ (ps.foldl (fun g p =>
      if has_time_conflict p.1 p.2 then addEdge (addEdge g p.1.id p.2.id) p.2.id p.1.id
      else g) g) a.id := by
  intro ps
  induction ps with
  | nil => intro g b a h; cases h
  | cons p ps ih =>
    intro g b a hmem hconf hne
    rw [List.foldl_cons]
    rcases List.mem_cons.mp hmem with rfl | hmem
    · apply graph_fold_mono
      simp only [hconf, if_true]
      rw [addEdge, if_pos rfl, addEdge, if_neg (fun he => hne he.symm)]
      exact List.mem_append.mpr (Or.inr (List.mem_singleton.mpr rfl))
    · exact ih _ b a hmem hconf hne

theorem build_conflict_graph_edge {acts pre post : List Activity} {b a : Activity}
    (heq : acts = pre ++ a :: post) (hb : b ∈ pre)
    (hconf : has_time_conflict b a = true) (hne : b.id ≠ a.id) :
    b.id ∈ build_conflict_graph acts a.id := by
  rw [build_conflict_graph]
  exact graph_fold_edge _ _ b a (heq ▸ allPairs_mem_of_split pre post b a hb) hconf hne

/-- Splitting the greedy coloring at one activity: its color is the smallest
one unused among its already-colored neighbours, and every earlier activity
keeps its prefix-stage color. -/
theorem colorOf_split {acts pre post : List Activity} {a : Activity}
    (hnodup : (acts.map Activity.id).Nodup) (heq : acts = pre ++ a :: post) :
    colorOf acts a = nextColor ((build_conflict_graph acts a.id).filterMap
      (pre.foldl (assignStep (build_conflict_graph acts)) (fun _ => none))) ∧
    ∀ b ∈ pre, ∃ d,
      pre.foldl (assignStep (build_conflict_graph acts)) (fun _ => none) b.id =
        some d ∧ colorOf acts b = d := by
  obtain ⟨hpost, hpre⟩ := nodup_ids_split hnodup heq
  have hfold : assign_colors acts (build_conflict_graph acts) =
      (a :: post).foldl (assignStep (build_conflict_graph acts))
        (pre.foldl (assignStep (build_conflict_graph acts)) (fun _ => none)) := by
    rw [assign_colors]
    conv in acts.foldl _ _ => rw [heq]
    rw [List.foldl_append, ← heq]
  constructor
  · rw [colorOf, hfold, List.foldl_cons]
    rw [assign_fold_persist _ post _ a.id hpost]
    rw [assignStep]
    simp
  · intro b hb
    obtain ⟨d, hd⟩ := assign_fold_mem_some (build_conflict_graph acts) pre
      (fun _ => none) b hb
    refine ⟨d, hd, ?_⟩
    rw [colorOf, hfold]
    rw [assign_fold_persist _ (a :: post) _ b.id (fun x hx => hpre b hb x hx)]
    rw [hd]
    rfl


/-- C7 core induction: in a clique with distinct ids, every activity's greedy
color differs from every earlier activity's color. -/
theorem clique_colors_aux (acts : List Activity)
    (hnodup : (acts.map Activity.id).Nodup)
    (hcl : List.Pairwise (fun a b => overlaps_with a b = true) acts) :
    ∀ (post pre : List Activity), acts = pre ++ post →
    (∀ b ∈ pre, ∀ x ∈ post, colorOf acts b ≠ colorOf acts x) ∧
    List.Pairwise (fun x y => colorOf acts x ≠ colorOf acts y) post := by
  intro post
  induction post with
  | nil =>
    intro pre _
    exact ⟨fun b _ x hx => absurd hx (List.not_mem_nil x), List.Pairwise.nil⟩
  | cons a rest ih =>
    intro pre heq
    have hsplit := nodup_ids_split hnodup heq
    have heq2 : acts = (pre ++ [a]) ++ rest := by
      rw [heq, List.append_assoc]
      rfl
    have hkey : ∀ b ∈ pre, colorOf acts b ≠ colorOf acts a := by
      intro b hb
      obtain ⟨hca, hcb⟩ := colorOf_split hnodup heq
      obtain ⟨d, hd, hdc⟩ := hcb b hb
      rw [hdc, hca]
      intro hcon
      have hba : has_time_conflict b a = true := by
        have hsp : [b, a].Sublist acts := by
          rw [heq]
          have h2 : [b].Sublist pre := List.singleton_sublist.mpr hb
          have h1 : [a].Sublist (a :: rest) :=
            List.Sublist.cons₂ a (List.nil_sublist rest)
          simpa using List.Sublist.append h2 h1
        exact List.rel_of_pairwise_cons (List.Pairwise.sublist hsp hcl)
          (List.mem_cons_self a [])
      have hne : b.id ≠ a.id :=
        fun he => hsplit.2 b hb a (List.mem_cons_self a rest) he.symm
      have hedge : b.id ∈ build_conflict_graph acts a.id :=
        build_conflict_graph_edge heq hb hba hne
      have hdmem : d ∈ (build_conflict_graph acts a.id).filterMap
          (pre.foldl (assignStep (build_conflict_graph acts)) (fun _ => none)) :=
        List.mem_filterMap.mpr ⟨b.id, hedge, hd⟩
      have hnot := (nextColor_spec ((build_conflict_graph acts a.id).filterMap
        (pre.foldl (assignStep (build_conflict_graph acts)) (fun _ => none)))).1
      rw [← hcon] at hnot
      exact hnot hdmem
    constructor
    · intro b hb x hx
      rcases List.mem_cons.mp hx with rfl | hx
      · exact hkey b hb
      · exact (ih (pre ++ [a]) heq2).1 b (List.mem_append.mpr (Or.inl hb)) x hx
    · refine List.Pairwise.cons ?_ (ih (pre ++ [a]) heq2).2
      intro x hx
      exact (ih (pre ++ [a]) heq2).1 a
        (List.mem_append.mpr (Or.inr (List.mem_singleton.mpr rfl))) x hx

/-- C7: on a clique — pairwise overlapping activities with distinct ids — the
greedy coloring gives every activity a different color, so exactly `k`
distinct colors are used for `k` activities. -/
theorem clique_coloring_distinct (acts : List Activity)
    (hnodup : (acts.map Activity.id).Nodup)
    (hcl : List.Pairwise (fun a b => overlaps_with a b = true) acts) :
    (acts.map (colorOf acts)).Nodup ∧
    (acts.map (colorOf acts)).toFinset.card = acts.length := by
  have hpw : List.Pairwise (fun x y => colorOf acts x ≠ colorOf acts y) acts :=
    (clique_colors_aux acts hnodup hcl acts [] rfl).2
  have hnd : (acts.map (colorOf acts)).Nodup := List.pairwise_map.mpr hpw
  exact ⟨hnd, by rw [List.toFinset_card_of_nodup hnd, List.length_map]⟩

/-- Witness for `clique_coloring_distinct` on a 3-clique. -/
theorem clique_coloring_distinct_witness :
    (([⟨1, 0, 10, 1⟩, ⟨2, 5, 15, 1⟩, ⟨3, 2, 20, 1⟩] : List Activity).map
      (colorOf [⟨1, 0, 10, 1⟩, ⟨2, 5, 15, 1⟩, ⟨3, 2, 20, 1⟩])).Nodup :=
  (clique_coloring_distinct [⟨1, 0, 10, 1⟩, ⟨2, 5, 15, 1⟩, ⟨3, 2, 20, 1⟩]
    (by decide) (by decide)).1

/-- Greedy-coloring domination: below an activity's color, every color is
already used by some earlier activity.  Consequently colors first appear in
increasing order. -/
theorem greedy_domination {acts pre post : List Activity} {a : Activity}
    (hnodup : (acts.map Activity.id).Nodup) (heq : acts = pre ++ a :: post) :
    ∀ d < colorOf acts a, ∃ b ∈ pre, colorOf acts b = d := by
  intro d hd
  obtain ⟨hca, hcb⟩ := colorOf_split hnodup heq
  rw [hca] at hd
  have hdin := (nextColor_spec ((build_conflict_graph acts a.id).filterMap
    (pre.foldl (assignStep (build_conflict_graph acts)) (fun _ => none)))).2 d hd
  obtain ⟨nid, hnid, hnd⟩ := List.mem_filterMap.mp hdin
  rcases assign_fold_domain (build_conflict_graph acts) pre (fun _ => none)
    nid d hnd with hnone | ⟨b, hb, hbid⟩
  · cases hnone
  · obtain ⟨d', hd', hdc'⟩ := hcb b hb
    rw [hbid, hnd] at hd'
    refine ⟨b, hb, ?_⟩
    rw [hdc']
    exact (Option.some_inj.mp hd').symm

theorem addToGroup_keys (gs : List (Nat × List Activity)) (c : Nat) (a : Activity) :
    (addToGroup gs c a).map Prod.fst =
      if c ∈ gs.map Prod.fst then gs.map Prod.fst else gs.map Prod.fst ++ [c] := by
  rw [addToGroup]
  by_cases hany : gs.any (fun p => p.1 == c) = true
  · rw [if_pos hany, if_pos]
    · rw [List.map_map]
      apply List.map_congr_left
      intro p _
      simp only [Function.comp_apply]
      split_ifs with hpc
      · rfl
      · rfl
    · rcases List.any_eq_true.mp hany with ⟨p, hp, hpc⟩
      exact List.mem_map.mpr ⟨p, hp, by simpa using hpc⟩
  · rw [if_neg hany, if_neg]
    · rw [List.map_append]
      rfl
    · intro hc
      apply hany
      rcases List.mem_map.mp hc with ⟨p, hp, hpc⟩
      exact List.any_eq_true.mpr ⟨p, hp, by simp [hpc]⟩

/-- The color-group keys of the grouping pass are exactly `0, 1, …, m−1` in
that order, thanks to greedy domination. -/
theorem colorGroups_keys_range (acts : List Activity) (cm : Int → Option Nat)
    (hdom : ∀ pre a post, acts = pre ++ a :: post →
      ∀ d < (cm a.id).getD 0, ∃ b ∈ pre, (cm b.id).getD 0 = d) :
    ∃ m, (colorGroups acts cm).map Prod.fst = List.range m := by
  have aux : ∀ (post pre : List Activity) (gs : List (Nat × List Activity))
      (m : Nat), acts = pre ++ post → gs.map Prod.fst = List.range m →
      (∀ d, d < m ↔ ∃ b ∈ pre, (cm b.id).getD 0 = d) →
      ∃ m', (post.foldl (fun gs x => addToGroup gs ((cm x.id).getD 0) x) gs).map
        Prod.fst = List.range m' := by
    intro post
    induction post with
    | nil =>
      intro pre gs m _ hkeys _
      exact ⟨m, hkeys⟩
    | cons a rest ih =>
      intro pre gs m heq hkeys hinv
      have heq2 : acts = (pre ++ [a]) ++ rest := by
        rw [heq, List.append_assoc]
        rfl
      have hcle : (cm a.id).getD 0 ≤ m := by
        by_contra hgt
        push_neg at hgt
        obtain ⟨b, hb, hbc⟩ := hdom pre a rest heq m hgt
        have := (hinv m).mpr ⟨b, hb, hbc⟩
        omega
      rw [List.foldl_cons]
      by_cases hcm : (cm a.id).getD 0 < m
      · refine ih (pre ++ [a]) _ m heq2 ?_ ?_
        · rw [addToGroup_keys, if_pos (by rw [hkeys]; exact List.mem_range.mpr hcm),
            hkeys]
        · intro d
          constructor
          · intro hdm
            obtain ⟨b, hb, hbc⟩ := (hinv d).mp hdm
            exact ⟨b, List.mem_append.mpr (Or.inl hb), hbc⟩
          · rintro ⟨b, hb, hbc⟩
            rcases List.mem_append.mp hb with hb | hb
            · exact (hinv d).mpr ⟨b, hb, hbc⟩
            · rw [List.mem_singleton] at hb
              subst hb
              omega
      · have hceq : (cm a.id).getD 0 = m := by omega
        refine ih (pre ++ [a]) _ (m + 1) heq2 ?_ ?_
        · have hnotmem : (cm a.id).getD 0 ∉ gs.map Prod.fst := by
            rw [hkeys]
            intro hmem
            have := List.mem_range.mp hmem
            omega
          rw [addToGroup_keys, if_neg hnotmem, hkeys, hceq, ← List.range_succ]
        · intro d
          constructor
          · intro hdm1
            by_cases hdm : d < m
            · obtain ⟨b, hb, hbc⟩ := (hinv d).mp hdm
              exact ⟨b, List.mem_append.mpr (Or.inl hb), hbc⟩
            · have hdeq : d = m := by omega
              exact ⟨a, List.mem_append.mpr (Or.inr (List.mem_singleton.mpr rfl)),
                by rw [hceq, hdeq]⟩
          · rintro ⟨b, hb, hbc⟩
            rcases List.mem_append.mp hb with hb | hb
            · have := (hinv d).mpr ⟨b, hb, hbc⟩
              omega
            · rw [List.mem_singleton] at hb
              subst hb
              omega
  rw [colorGroups]
  exact aux acts [] [] 0 rfl rfl (by simp)

theorem addToGroup_color {cm : Int → Option Nat} {gs : List (Nat × List Activity)}
    {c : Nat} {a : Activity}
    (hgs : ∀ p ∈ gs, ∀ x ∈ p.2, (cm x.id).getD 0 = p.1)
    (ha : (cm a.id).getD 0 = c) :
    ∀ p ∈ addToGroup gs c a, ∀ x ∈ p.2, (cm x.id).getD 0 = p.1 := by
  intro p hp x hx
  rw [addToGroup] at hp
  split_ifs at hp with hany
  · rcases List.mem_map.mp hp with ⟨q, hq, hqe⟩
    by_cases hqc : q.1 = c
    · rw [if_pos hqc] at hqe
      subst hqe
      rcases List.mem_append.mp hx with hx | hx
      · exact hgs q hq x hx
      · rw [List.mem_singleton] at hx
        subst hx
        rw [ha, hqc]
    · rw [if_neg hqc] at hqe
      subst hqe
      exact hgs q hq x hx
  · rcases List.mem_append.mp hp with hp | hp
    · exact hgs p hp x hx
    · rw [List.mem_singleton] at hp
      subst hp
      rw [List.mem_singleton] at hx
      subst hx
      exact ha

theorem colorGroups_member_color (cm : Int → Option Nat) :
    ∀ (l : List Activity) (gs : List (Nat × List Activity)),
    (∀ p ∈ gs, ∀ x ∈ p.2, (cm x.id).getD 0 = p.1) →
    ∀ p ∈ l.foldl (fun gs a => addToGroup gs ((cm a.id).getD 0) a) gs,
      ∀ x ∈ p.2, (cm x.id).getD 0 = p.1 := by
  intro l
  induction l with
  | nil => intro gs hgs; exact hgs
  | cons a rest ih =>
    intro gs hgs
    rw [List.foldl_cons]
    exact ih _ (addToGroup_color hgs rfl)

theorem placeAll_ids : ∀ (l : List Activity) (t : Int),
    ((placeAll l t).1).map Activity.id = l.map Activity.id := by
  intro l
  induction l with
  | nil => intro t; rfl
  | cons a rest ih =>
    intro t
    simp only [placeAll, List.map_cons]
    rw [ih]

theorem placeAll_mem_id {l : List Activity} {t : Int} {x : Activity}
    (hx : x ∈ (placeAll l t).1) : ∃ a ∈ l, x.id = a.id := by
  have hmap : x.id ∈ l.map Activity.id := by
    rw [← placeAll_ids l t]
    exact List.mem_map_of_mem Activity.id hx
  rcases List.mem_map.mp hmap with ⟨a, ha, hae⟩
  exact ⟨a, ha, hae.symm⟩

/-- Chain structure of a single placement run: one-unit gaps throughout, the
first placement starts at the cursor, and the final cursor sits one unit past
the last placement. -/
theorem placeAll_chain_spec : ∀ (l : List Activity) (t : Int),
    List.Chain' (fun x y => y.start = x.endTime + 1) (placeAll l t).1 ∧
    (∀ h, (placeAll l t).1.head? = some h → h.start = t) ∧
    (∀ x, (placeAll l t).1.getLast? = some x → (placeAll l t).2 = x.endTime + 1) ∧
    ((placeAll l t).1 = [] → (placeAll l t).2 = t) := by
  intro l
  induction l with
  | nil =>
    intro t
    refine ⟨List.chain'_nil, ?_, ?_, fun _ => rfl⟩
    · intro h hcon; cases hcon
    · intro x hcon; cases hcon
  | cons a rest ih =>
    intro t
    obtain ⟨hch, hhd, hlast, hemp⟩ := ih (t + (a.endTime - a.start) + 1)
    simp only [placeAll]
    refine ⟨?_, ?_, ?_, ?_⟩
    · rw [List.chain'_cons']
      refine ⟨?_, hch⟩
      intro y hy
      rw [hhd y hy]
    · intro h hh
      rw [List.head?_cons, Option.some_inj] at hh
      rw [← hh]
    · intro x hx
      cases ho : (placeAll rest (t + (a.endTime - a.start) + 1)).1 with
      | nil =>
        rw [ho] at hx
        simp only [List.getLast?_singleton, Option.some_inj] at hx
        rw [hemp ho, ← hx]
      | cons y ys =>
        rw [ho] at hx
        rw [List.getLast?_cons_cons] at hx
        rw [← ho] at hx
        exact hlast x hx
    · intro hcon
      cases hcon

theorem scheduleGroups_chain : ∀ (gs : List (Nat × List Activity)) (t : Int),
    List.Chain' (fun x y => y.start = x.endTime + 1) (scheduleGroups gs t) ∧
    (∀ h, (scheduleGroups gs t).head? = some h → h.start = t) := by
  intro gs
  induction gs with
  | nil =>
    intro t
    refine ⟨List.chain'_nil, ?_⟩
    intro h hcon; cases hcon
  | cons g gs ih =>
    intro t
    obtain ⟨hch1, hhd1, hlast1, hemp1⟩ := placeAll_chain_spec (sortStart g.2) t
    obtain ⟨hch2, hhd2⟩ := ih (placeAll (sortStart g.2) t).2
    rw [scheduleGroups]
    constructor
    · rw [List.chain'_append]
      refine ⟨hch1, hch2, ?_⟩
      intro x hx y hy
      rw [hhd2 y hy, hlast1 x hx]
    · intro h hh
      cases ho : (placeAll (sortStart g.2) t).1 with
      | nil =>
        rw [ho, List.nil_append] at hh
        rw [hhd2 h hh, hemp1 ho]
      | cons z zs =>
        rw [ho, List.cons_append, List.head?_cons, Option.some_inj] at hh
        have hz := hhd1 z (by rw [ho]; rfl)
        rw [← hh]
        exact hz

theorem scheduleGroups_member : ∀ (gs : List (Nat × List Activity)) (t : Int)
    (x : Activity), x ∈ scheduleGroups gs t →
    ∃ p ∈ gs, ∃ a ∈ p.2, x.id = a.id := by
  intro gs
  induction gs with
  | nil => intro t x hx; cases hx
  | cons g gs ih =>
    intro t x hx
    rw [scheduleGroups] at hx
    rcases List.mem_append.mp hx with hx | hx
    · obtain ⟨a, ha, hae⟩ := placeAll_mem_id hx
      exact ⟨g, List.mem_cons_self g gs, a, (sortStart_perm g.2).subset ha, hae⟩
    · obtain ⟨p, hp, a, ha, hae⟩ := ih _ x hx
      exact ⟨p, List.mem_cons_of_mem g hp, a, ha, hae⟩

theorem pairwise_le_const {c : Nat} : ∀ l : List Nat, (∀ u ∈ l, u = c) →
    l.Pairwise (· ≤ ·) := by
  intro l
  induction l with
  | nil => intro _; exact List.Pairwise.nil
  | cons x xs ih =>
    intro h
    refine List.Pairwise.cons ?_ (ih (fun u hu => h u (List.mem_cons_of_mem x hu)))
    intro y hy
    rw [h x (List.mem_cons_self x xs), h y (List.mem_cons_of_mem x hy)]

/-- Along the serialized output, the assigned colors are non-decreasing:
each color group is contiguous and the groups appear in increasing key
order. -/
theorem scheduleGroups_colors_sorted (cm : Int → Option Nat) :
    ∀ (gs : List (Nat × List Activity)) (t : Int),
    (∀ p ∈ gs, ∀ x ∈ p.2, (cm x.id).getD 0 = p.1) →
    List.Pairwise (· < ·) (gs.map Prod.fst) →
    List.Pairwise (· ≤ ·)
      ((scheduleGroups gs t).map (fun x => (cm x.id).getD 0)) := by
  intro gs
  induction gs with
  | nil => intro t _ _; exact List.Pairwise.nil
  | cons g gs ih =>
    intro t hcol hkeys
    rw [scheduleGroups, List.map_append, List.pairwise_append]
    have hcol1 : ∀ x ∈ (placeAll (sortStart g.2) t).1, (cm x.id).getD 0 = g.1 := by
      intro x hx
      obtain ⟨a, ha, hae⟩ := placeAll_mem_id hx
      rw [hae]
      exact hcol g (List.mem_cons_self g gs) a ((sortStart_perm g.2).subset ha)
    have hcol2 : ∀ y ∈ scheduleGroups gs (placeAll (sortStart g.2) t).2,
        ∃ k ∈ gs.map Prod.fst, (cm y.id).getD 0 = k := by
      intro y hy
      obtain ⟨p, hp, a, ha, hae⟩ := scheduleGroups_member gs _ y hy
      refine ⟨p.1, List.mem_map_of_mem Prod.fst hp, ?_⟩
      rw [hae]
      exact hcol p (List.mem_cons_of_mem g hp) a ha
    refine ⟨?_, ?_, ?_⟩
    · apply pairwise_le_const
      intro u hu
      rcases List.mem_map.mp hu with ⟨x, hx, hxe⟩
      rw [← hxe]
      exact hcol1 x hx
    · apply ih
      · intro p hp x hx
        exact hcol p (List.mem_cons_of_mem g hp) x hx
      · rw [List.map_cons] at hkeys
        exact hkeys.sublist (List.sublist_cons_self _ _)
    · intro u hu v hv
      rcases List.mem_map.mp hu with ⟨x, hx, hxe⟩
      rcases List.mem_map.mp hv with ⟨y, hy, hye⟩
      obtain ⟨k, hk, hke⟩ := hcol2 y hy
      rw [← hxe, ← hye, hcol1 x hx, hke]
      rw [List.map_cons] at hkeys
      exact le_of_lt (List.rel_of_pairwise_cons hkeys hk)

/-- C8: in the serialization step of the graph-coloring solver (for inputs
with unique ids), (i) the color groups are processed in strictly increasing
color order (the insertion-ordered keys are exactly `0 < 1 < …`), (ii)
consecutive placements on the synthetic timeline are separated by exactly a
one-unit gap, (iii) along the output the assigned colors are non-decreasing,
so every activity of a smaller color is placed before every activity of a
larger color, and (iv) each color group is laid out sorted by original start
time. -/
theorem coloring_serialization_order (acts : List Activity)
    (hnodup : (acts.map Activity.id).Nodup) :
    List.Sorted (· < ·) ((colorGroups acts
      (assign_colors acts (build_conflict_graph acts))).map Prod.fst) ∧
    List.Chain' (fun x y => y.start = x.endTime + 1) (coloring_schedule acts) ∧
    List.Sorted (· ≤ ·) ((coloring_schedule acts).map
      (fun x => ((assign_colors acts (build_conflict_graph acts)) x.id).getD 0)) ∧
    ∀ p ∈ colorGroups acts (assign_colors acts (build_conflict_graph acts)),
      List.Sorted startLE (sortStart p.2) := by
  have hdom : ∀ pre a post, acts = pre ++ a :: post →
      ∀ d < ((assign_colors acts (build_conflict_graph acts)) a.id).getD 0,
      ∃ b ∈ pre,
        ((assign_colors acts (build_conflict_graph acts)) b.id).getD 0 = d :=
    fun pre a post heq d hd => greedy_domination hnodup heq d hd
  obtain ⟨m, hkeys⟩ := colorGroups_keys_range acts
    (assign_colors acts (build_conflict_graph acts)) hdom
  have hkeysSorted : List.Pairwise (· < ·) ((colorGroups acts
      (assign_colors acts (build_conflict_graph acts))).map Prod.fst) := by
    rw [hkeys]
    exact List.pairwise_lt_range m
  have hcolor : ∀ p ∈ colorGroups acts
      (assign_colors acts (build_conflict_graph acts)), ∀ x ∈ p.2,
      ((assign_colors acts (build_conflict_graph acts)) x.id).getD 0 = p.1 := by
    rw [colorGroups]
    exact colorGroups_member_color _ acts []
      (fun p hp => absurd hp (List.not_mem_nil p))
  refine ⟨hkeysSorted, ?_, ?_, fun p _ => sortStart_sorted p.2⟩
  · rw [coloring_schedule]
    split_ifs
    · exact List.chain'_nil
    · exact (scheduleGroups_chain _ 0).1
  · rw [coloring_schedule]
    split_ifs
    · exact List.Pairwise.nil
    · exact scheduleGroups_colors_sorted _ _ 0 hcolor hkeysSorted

/-- Witness for `coloring_serialization_order` on the worked example. -/
theorem coloring_serialization_order_witness :
    List.Chain' (fun x y => y.start = x.endTime + 1)
      (coloring_schedule workedExample) :=
  (coloring_serialization_order workedExample (by decide)).2.1
